import Mathlib

/-! Verification of the data-cleaning core of `enhanced_html_pipeline.py`
(class `EnhancedHTMLPipeline`, methods `clean_data` and `analyze_data`).

A pandas DataFrame is modelled as an ordered list of named, dtype-tagged
columns together with an explicit row count (the length of the index,
pandas `len(df)`).  Numeric cells are exact rationals: pandas stores them
as int64/float64, and every value the verified properties manipulate is
exactly representable.  A missing cell (NaN/None) is `Cell.na`.  The
cleaning log is modelled as a list of structured records, one constructor
per `log_action` message of the source, carrying the exact values the
source formats into the message text. -/

/-- One cell of a column: missing (NaN), a number (int64/float64 storage),
a string (object storage) or a boolean (numpy bool storage). -/
inductive Cell where
  | na : Cell
  | num (x : ℚ) : Cell
  | str (s : String) : Cell
  | boolean (b : Bool) : Cell
  deriving DecidableEq

/-- Storage kind of a column, as the source inspects it:
`numeric` covers int64/float64 (matched by `select_dtypes(include=[np.number])`
and by `dtype in ['int64', 'float64']`), `object` covers text columns
(matched by `select_dtypes(include=['object'])`), and `bool` stands for the
remaining storage kinds (numpy bool), which neither test matches. -/
inductive Dtype where
  | numeric : Dtype
  | object : Dtype
  | bool : Dtype
  deriving DecidableEq

/-- One named column of a DataFrame. -/
structure Column where
  name : String
  dtype : Dtype
  cells : List Cell
  deriving DecidableEq

/-- A DataFrame: the index length (pandas `len(df)`) and the ordered columns. -/
structure Dataset where
  nrows : ℕ
  cols : List Column
  deriving DecidableEq

/-- Number of missing cells of a column (`Series.isnull().sum()`). -/
def countNa (cells : List Cell) : ℕ := cells.count Cell.na

/-- The non-missing cells of a column, in order (`Series.dropna()`). -/
def nonMissing (cells : List Cell) : List Cell :=
  cells.filter (fun x => decide (x ≠ Cell.na))

/-- The numeric values of a column, in order.  On a well-formed numeric
column this is exactly the non-missing content. -/
def nonMissingNums (cells : List Cell) : List ℚ :=
  cells.filterMap (fun x => match x with | Cell.num v => some v | _ => none)

/-- Total number of missing cells of a DataFrame (`df.isnull().sum().sum()`). -/
def totalMissing (d : Dataset) : ℕ := (d.cols.map (fun c => countNa c.cells)).sum

/-- Shape of a DataFrame, `df.shape = (rows, columns)`. -/
def shape (d : Dataset) : ℕ × ℕ := (d.nrows, d.cols.length)

/-- Typing discipline pandas enforces per storage dtype: an int64/float64
column holds numbers or NaN, an object column holds strings or NaN, and a
bool column holds booleans (a pandas bool column cannot hold NaN). -/
def cellOk : Dtype → Cell → Bool
  | Dtype.numeric, Cell.na => true
  | Dtype.numeric, Cell.num _ => true
  | Dtype.object, Cell.na => true
  | Dtype.object, Cell.str _ => true
  | Dtype.bool, Cell.boolean _ => true
  | _, _ => false

/-- Well-formed DataFrame: every column aligned with the index and typed
according to its storage dtype. -/
@[reducible] def wf (d : Dataset) : Prop :=
  ∀ c ∈ d.cols, c.cells.length = d.nrows ∧ ∀ x ∈ c.cells, cellOk c.dtype x = true

/-- One entry of the cleaning log, one constructor per `log_action` call of
`clean_data`.  `droppedColumn` carries the raw ratio `missing_pct` that the
source renders with `:.1%`. -/
inductive ActionRecord where
  | standardized (n : ℕ) : ActionRecord
  | droppedColumn (name : String) (missingPct : ℚ) : ActionRecord
  | noColumnsDropped : ActionRecord
  | removedDuplicates (n : ℕ) : ActionRecord
  | noDuplicates : ActionRecord
  | filledMedian (name : String) (count : ℕ) : ActionRecord
  | filledMode (name : String) (count : ℕ) : ActionRecord
  | noMissingToFill : ActionRecord
  | cappedOutliers (name : String) (count : ℕ) : ActionRecord
  | noOutliers : ActionRecord
  | cleaningComplete (oldShape newShape : ℕ × ℕ) : ActionRecord
  deriving DecidableEq

/-- Integer floor of a rational, computable by kernel reduction
(`q.den` is positive, so floor division of `num` by `den` is the floor). -/
def ratFloor (q : ℚ) : ℤ := q.num.fdiv q.den

/-- Linear interpolation at fractional position `pos` into the sorted list
`s`: the value `s[i] + frac * (s[i+1] - s[i])` with `i = floor pos`.  This
is the arithmetic numpy/pandas perform inside `quantile` (default
`interpolation='linear'`). -/
def interpAt (s : List ℚ) (pos : ℚ) : ℚ :=
  let i : ℕ := (ratFloor pos).toNat
  let a := s.getD i 0
  let b := s.getD (i + 1) a
  a + (pos - (i : ℚ)) * (b - a)

/-- Pandas `Series.quantile(q)` over the non-missing values `xs`:
`NaN` (here `none`) on an empty series, otherwise linear interpolation at
position `(n - 1) * q` into the sorted values.  `Series.median()` is the
special case `q = 1/2`. -/
def quantileLinear (xs : List ℚ) (q : ℚ) : Option ℚ :=
  if xs.isEmpty then none
  else some (interpAt (xs.insertionSort (· ≤ ·)) (((xs.length : ℚ) - 1) * q))

/-- Lexicographic comparison of character lists by code point; this is how
Python compares two strings. -/
def charListLe : List Char → List Char → Bool
  | [], _ => true
  | _ :: _, [] => false
  | a :: as, b :: bs => if a = b then charListLe as bs else decide (a < b)

/-- Python string comparison, code-point lexicographic. -/
def strLe (s t : String) : Bool := charListLe s.data t.data

/-- Rank separating the four cell constructors; only used to make `cellLe`
total on heterogeneous cells (one pandas column never mixes kinds). -/
def Cell.rank : Cell → ℕ
  | Cell.na => 0
  | Cell.boolean _ => 1
  | Cell.num _ => 2
  | Cell.str _ => 3

/-- Total order on cells: numbers by value, strings as Python compares
them, booleans `false < true`; heterogeneous cells by rank.  This is the
order in which pandas sorts the tied values of `Series.mode()`. -/
def cellLe (a b : Cell) : Bool :=
  match a, b with
  | Cell.num x, Cell.num y => decide (x ≤ y)
  | Cell.str s, Cell.str t => strLe s t
  | Cell.boolean x, Cell.boolean y => !x || y
  | _, _ => decide (a.rank ≤ b.rank)

/-- Least element of a list of cells under `cellLe`. -/
def minCell : List Cell → Option Cell
  | [] => none
  | x :: xs => some (xs.foldl (fun a b => if cellLe a b then a else b) x)

/-- Largest multiplicity among the values of `l`. -/
def maxCount (l : List Cell) : ℕ := (l.map (fun v => l.count v)).foldr max 0

/-- The distinct non-missing values of maximal multiplicity: the value set
of `Series.mode()` (which drops NaN). -/
def modes (cells : List Cell) : List Cell :=
  let nm := nonMissing cells
  nm.dedup.filter (fun v => nm.count v == maxCount nm)

/-- `Series.mode()[0]` when a mode exists: pandas returns the tied modes
sorted ascending, so element 0 is the least tied value. -/
def mode (cells : List Cell) : Option Cell := minCell (modes cells)

/-- `Series.fillna(v)`: replace every missing cell by `v`. -/
def fillCells (cells : List Cell) (v : Cell) : List Cell :=
  cells.map (fun x => if x = Cell.na then v else x)

/-- Step 1 of `clean_data`: `col.strip().lower().replace(' ', '_')
.replace('-', '_')` followed by `re.sub(r'[^a-zA-Z0-9_]', '', ...)`.
Characters of a normalized identifier are `[a-zA-Z0-9_]`. -/
def isIdentChar (c : Char) : Bool :=
  c = '_' || ('a' ≤ c && c ≤ 'z') || ('A' ≤ c && c ≤ 'Z') || ('0' ≤ c && c ≤ '9')

/-- Trim leading and trailing whitespace (Python `str.strip()`). -/
def trimChars (l : List Char) : List Char :=
  ((l.dropWhile Char.isWhitespace).reverse.dropWhile Char.isWhitespace).reverse

/-- Normalize one column identifier (step 1 of `clean_data`).  The two
single-character `replace` calls act per character, after lowering. -/
def normalizeName (s : String) : String :=
  String.mk ((((trimChars s.data).map Char.toLower).map
    (fun c => if c = ' ' || c = '-' then '_' else c)).filter isIdentChar)

/-- Step 1 of `clean_data`: rename every column, log one record with the
number of identifiers processed. -/
def standardizeColumns (d : Dataset) : Dataset × List ActionRecord :=
  (⟨d.nrows, d.cols.map (fun c => ⟨normalizeName c.name, c.dtype, c.cells⟩)⟩,
   [ActionRecord.standardized d.cols.length])

/-- The `missing_pct` the source computes for a column during step 2.
With zero rows the Python expression is `0/0 = NaN`, whose comparison with
the threshold is `False`; rational division by zero is `0` here, with the
same observable outcome (the column is never dropped). -/
def missingPct (d : Dataset) (c : Column) : ℚ := (countNa c.cells : ℚ) / (d.nrows : ℚ)

/-- Step 2 of `clean_data`: drop every column whose missing ratio exceeds
the fixed threshold `0.95`, logging one record per dropped column (with the
exact ratio), or a single no-op record when none qualifies. -/
def dropPass (d : Dataset) : Dataset × List ActionRecord :=
  let colsToDrop := d.cols.filter (fun c => decide (missingPct d c > 95 / 100))
  if colsToDrop.isEmpty then (d, [ActionRecord.noColumnsDropped])
  else
    (⟨d.nrows, d.cols.filter (fun c => !decide (missingPct d c > 95 / 100))⟩,
     colsToDrop.map (fun c => ActionRecord.droppedColumn c.name (missingPct d c)))

/-- Row `i` of a DataFrame, as the tuple of its cells across the columns
(out-of-range reads default to NaN; they never occur on well-formed data). -/
def rowAt (d : Dataset) (i : ℕ) : List Cell := d.cols.map (fun c => c.cells.getD i Cell.na)

/-- Whether row `i` equals some earlier row in every column; pandas
`drop_duplicates` compares NaN equal to NaN. -/
def isDupOfEarlier (d : Dataset) (i : ℕ) : Bool :=
  (List.range i).any (fun j => decide (rowAt d j = rowAt d i))

/-- Indices of the rows `drop_duplicates()` keeps: each first occurrence,
in the original order. -/
def keepIdx (d : Dataset) : List ℕ :=
  (List.range d.nrows).filter (fun i => !isDupOfEarlier d i)

/-- Step 3 of `clean_data`: `drop_duplicates()` (keep the first occurrence)
and log the number of removed rows, or a no-op record when zero. -/
def dedupPass (d : Dataset) : Dataset × List ActionRecord :=
  let keep := keepIdx d
  let d' : Dataset :=
    ⟨keep.length, d.cols.map (fun c => ⟨c.name, c.dtype, keep.map (fun i => c.cells.getD i Cell.na)⟩)⟩
  let removed := d.nrows - keep.length
  if removed > 0 then (d', [ActionRecord.removedDuplicates removed])
  else (d', [ActionRecord.noDuplicates])

/-- Step 4 of `clean_data` on one column: when it has missing cells, fill
them with the median (int64/float64 dtype) or with the first mode /
`"Unknown"` (other dtypes), logging one record.  `fillna` of the median of
an all-missing numeric series fills nothing (`fillna(NaN)`), though the
record is still logged, exactly as the source would. -/
def imputeCol (c : Column) : Column × List ActionRecord :=
  let m := countNa c.cells
  if m > 0 then
    if c.dtype = Dtype.numeric then
      match quantileLinear (nonMissingNums c.cells) (1 / 2) with
      | some med =>
        (⟨c.name, c.dtype, fillCells c.cells (Cell.num med)⟩, [ActionRecord.filledMedian c.name m])
      | none => (c, [ActionRecord.filledMedian c.name m])
    else
      (⟨c.name, c.dtype, fillCells c.cells ((mode c.cells).getD (Cell.str "Unknown"))⟩,
       [ActionRecord.filledMode c.name m])
  else (c, [])

/-- Step 4 of `clean_data`: fill the remaining missing values column by
column; when no column needed filling, log the single no-op record. -/
def imputePass (d : Dataset) : Dataset × List ActionRecord :=
  let results := d.cols.map imputeCol
  let recs := (results.map (fun r => r.2)).flatten
  (⟨d.nrows, results.map (fun r => r.1)⟩,
   if recs.isEmpty then [ActionRecord.noMissingToFill] else recs)

/-- `np.clip` of one cell into `[lo, hi]`; non-numeric cells (and NaN) pass
through unchanged. -/
def capCell (lo hi : ℚ) : Cell → Cell
  | Cell.num x => Cell.num (min hi (max x lo))
  | x => x

/-- Step 5 of `clean_data` on one numeric column: IQR fences from the
linearly interpolated quartiles; when any cell lies strictly outside, clip
the whole column and log the outlier count.  NaN quantiles (empty column)
compare `False` everywhere, so nothing is counted or clipped. -/
def outlierCol (c : Column) : Column × List ActionRecord :=
  if c.dtype = Dtype.numeric then
    match quantileLinear (nonMissingNums c.cells) (1 / 4),
          quantileLinear (nonMissingNums c.cells) (3 / 4) with
    | some q1, some q3 =>
      let iqr := q3 - q1
      let lowerBound := q1 - 3 / 2 * iqr
      let upperBound := q3 + 3 / 2 * iqr
      let outliers := (c.cells.filter (fun x =>
        match x with
        | Cell.num v => decide (v < lowerBound) || decide (v > upperBound)
        | _ => false)).length
      if outliers > 0 then
        (⟨c.name, c.dtype, c.cells.map (capCell lowerBound upperBound)⟩,
         [ActionRecord.cappedOutliers c.name outliers])
      else (c, [])
    | _, _ => (c, [])
  else (c, [])

/-- Step 5 of `clean_data`: cap the outliers of every numeric column; when
no column had any, log the single no-op record. -/
def outlierPass (d : Dataset) : Dataset × List ActionRecord :=
  let results := d.cols.map outlierCol
  let recs := (results.map (fun r => r.2)).flatten
  (⟨d.nrows, results.map (fun r => r.1)⟩,
   if recs.isEmpty then [ActionRecord.noOutliers] else recs)

/-- `EnhancedHTMLPipeline.clean_data`: the five steps in the order the
source runs them (standardize names, drop near-empty columns, remove
duplicate rows, impute missing values, cap outliers), the log accumulated
in that order and closed by the shape-change record. -/
def clean_data (d : Dataset) : Dataset × List ActionRecord :=
  let s1 := standardizeColumns d
  let s2 := dropPass s1.1
  let s3 := dedupPass s2.1
  let s4 := imputePass s3.1
  let s5 := outlierPass s4.1
  (s5.1,
   s1.2 ++ s2.2 ++ s3.2 ++ s4.2 ++ s5.2 ++
     [ActionRecord.cleaningComplete (shape d) (shape s5.1)])

/-- The facets of `analyze_data` that the verified properties concern:
`basic_info` counts and the key sets of the per-kind summaries.
`numeric_summary` is keyed by `select_dtypes(include=[np.number])`,
`categorical_summary` by `select_dtypes(include=['object'])`.  The numeric
statistics inside the summaries (mean, std, ...) are not modelled; no
stated property mentions them. -/
structure Analysis where
  rows : ℕ
  columns : ℕ
  numeric_columns : ℕ
  categorical_columns : ℕ
  total_missing : ℕ
  missing_data : List (String × ℕ)
  numeric_summary : List String
  categorical_summary : List String
  deriving DecidableEq

/-- `EnhancedHTMLPipeline.analyze_data` (the modelled facets). -/
def analyze_data (d : Dataset) : Analysis :=
  let numericCols := d.cols.filter (fun c => decide (c.dtype = Dtype.numeric))
  let categoricalCols := d.cols.filter (fun c => decide (c.dtype = Dtype.object))
  { rows := d.nrows
    columns := d.cols.length
    numeric_columns := numericCols.length
    categorical_columns := categoricalCols.length
    total_missing := totalMissing d
    missing_data := d.cols.map (fun c => (c.name, countNa c.cells))
    numeric_summary := numericCols.map (fun c => c.name)
    categorical_summary := categoricalCols.map (fun c => c.name) }

/-- Rendering of a ratio at one decimal place of percent, as Python
`f"{r:.1%}"` does: the printed number is `pctTenths r / 10` percent (`960`
renders as `96.0%`).  Exact decimal ties, where Python banker-rounds, do
not occur in any verified scenario. -/
def pctTenths (r : ℚ) : ℤ := round ((1000 : ℚ) * r)

/-- The rows of a DataFrame, in order. -/
def rowsOf (d : Dataset) : List (List Cell) := (List.range d.nrows).map (rowAt d)

/-- Log records of the dropped-column kind. -/
def isDropRecord : ActionRecord → Bool
  | ActionRecord.droppedColumn _ _ => true
  | _ => false

/-- Log records of the filled-missing-values kind. -/
def isFillRecord : ActionRecord → Bool
  | ActionRecord.filledMedian _ _ => true
  | ActionRecord.filledMode _ _ => true
  | _ => false

/-- Log records of the removed-duplicates kind. -/
def isDedupRecord : ActionRecord → Bool
  | ActionRecord.removedDuplicates _ => true
  | _ => false

/-- Log records of the capped-outliers kind. -/
def isCapRecord : ActionRecord → Bool
  | ActionRecord.cappedOutliers _ _ => true
  | _ => false

/-- Concrete dataset: one numeric column `[1, 1, NaN]`.  Rows 1 and 2 are
duplicates, row 3 has a missing cell. -/
def dsNumDup : Dataset := ⟨3, [⟨"c", Dtype.numeric, [Cell.num 1, Cell.num 1, Cell.na]⟩]⟩

/-- Concrete dataset: one numeric column `[2, 2, NaN]`, used to rerun the
pipeline on its own output. -/
def dsRerun : Dataset := ⟨3, [⟨"v", Dtype.numeric, [Cell.num 2, Cell.num 2, Cell.na]⟩]⟩

/-- Concrete dataset of the outlier scenario: one numeric column
`[1, 2, 3, 4, 1000]`. -/
def dsOutlier : Dataset :=
  ⟨5, [⟨"c", Dtype.numeric, [Cell.num 1, Cell.num 2, Cell.num 3, Cell.num 4, Cell.num 1000]⟩]⟩

/-- Concrete column of the column-drop scenario: 96 missing cells out of
100. -/
def colDrop96 : Column :=
  ⟨"x", Dtype.numeric, List.replicate 96 Cell.na ++ List.replicate 4 (Cell.num 1)⟩

/-- Concrete dataset of the column-drop scenario: 100 rows, one numeric
column with 96 missing cells. -/
def dsDrop96 : Dataset := ⟨100, [colDrop96]⟩

/-- The lower IQR fence of step 5, `Q1 - 1.5 * IQR`, over the non-missing
values `xs` of a numeric column. -/
def lowerFence (xs : List ℚ) : ℚ :=
  (quantileLinear xs (1 / 4)).getD 0 -
    3 / 2 * ((quantileLinear xs (3 / 4)).getD 0 - (quantileLinear xs (1 / 4)).getD 0)

/-- The upper IQR fence of step 5, `Q3 + 1.5 * IQR`, over the non-missing
values `xs` of a numeric column. -/
def upperFence (xs : List ℚ) : ℚ :=
  (quantileLinear xs (3 / 4)).getD 0 +
    3 / 2 * ((quantileLinear xs (3 / 4)).getD 0 - (quantileLinear xs (1 / 4)).getD 0)

/-- Concrete dataset: a single boolean column. -/
def dsBool : Dataset := ⟨1, [⟨"b", Dtype.bool, [Cell.boolean true]⟩]⟩

/-- Concrete dataset with a missing numeric cell and a missing categorical
cell. -/
def dsMixed : Dataset :=
  ⟨4,
   [⟨"a", Dtype.numeric, [Cell.num 1, Cell.na, Cell.num 5, Cell.num 2]⟩,
    ⟨"s", Dtype.object, [Cell.str "u", Cell.str "v", Cell.na, Cell.str "u"]⟩]⟩

/-- Concrete dataset whose categorical column has the two tied modes
`"a"` and `"b"`, `"b"` encountered first. -/
def dsModeTie : Dataset :=
  ⟨5,
   [⟨"id", Dtype.numeric,
     [Cell.num 1, Cell.num 2, Cell.num 3, Cell.num 4, Cell.num 5]⟩,
    ⟨"s", Dtype.object,
     [Cell.str "b", Cell.str "a", Cell.str "a", Cell.str "b", Cell.na]⟩]⟩

/-- Concrete dataset with a numeric and an object column and no missing
cell. -/
def dsPlain : Dataset :=
  ⟨2,
   [⟨"n", Dtype.numeric, [Cell.num 3, Cell.num 4]⟩,
    ⟨"s", Dtype.object, [Cell.str "x", Cell.str "y"]⟩]⟩

/-- Concrete dataset whose two column identifiers collide after
normalization: `"A B"` and `"A-B"` both normalize to `"a_b"`. -/
def dsCollide : Dataset :=
  ⟨2,
   [⟨"A B", Dtype.numeric, [Cell.num 1, Cell.num 3]⟩,
    ⟨"A-B", Dtype.numeric, [Cell.num 2, Cell.num 4]⟩]⟩

theorem charListLe_refl : ∀ a : List Char, charListLe a a = true
  | [] => rfl
  | a :: as => by simp [charListLe, charListLe_refl as]

theorem charListLe_total : ∀ a b : List Char, charListLe a b = true ∨ charListLe b a = true
  | [], _ => Or.inl rfl
  | _ :: _, [] => Or.inr rfl
  | a :: as, b :: bs => by
    by_cases h : a = b
    · subst h
      simpa [charListLe] using charListLe_total as bs
    · rcases lt_or_gt_of_ne h with hlt | hgt
      · left
        simp [charListLe, h, hlt]
      · right
        simp [charListLe, Ne.symm h, hgt]

theorem charListLe_antisymm : ∀ a b : List Char,
    charListLe a b = true → charListLe b a = true → a = b
  | [], [] => by intro _ _; rfl
  | [], _ :: _ => by intro _ h2; simp [charListLe] at h2
  | _ :: _, [] => by intro h1 _; simp [charListLe] at h1
  | a :: as, b :: bs => by
    intro h1 h2
    by_cases h : a = b
    · subst h
      simp only [charListLe, if_pos rfl] at h1 h2
      rw [charListLe_antisymm as bs h1 h2]
    · simp only [charListLe, if_neg h, if_neg (Ne.symm h), decide_eq_true_eq] at h1 h2
      exact absurd (lt_trans h1 h2) (lt_irrefl a)

theorem charListLe_trans : ∀ a b c : List Char,
    charListLe a b = true → charListLe b c = true → charListLe a c = true
  | [], _, _ => by intro _ _; rfl
  | _ :: _, [], _ => by intro h _; simp [charListLe] at h
  | _ :: _, _ :: _, [] => by intro _ h; simp [charListLe] at h
  | a :: as, b :: bs, c :: cs => by
    intro h1 h2
    by_cases hab : a = b <;> by_cases hbc : b = c
    · subst hab; subst hbc
      simp only [charListLe, if_pos rfl] at h1 h2 ⊢
      exact charListLe_trans as bs cs h1 h2
    · subst hab
      simpa [charListLe, hbc] using h2
    · subst hbc
      simpa [charListLe, hab] using h1
    · simp only [charListLe, if_neg hab, if_neg hbc, decide_eq_true_eq] at h1 h2
      have hac : a < c := lt_trans h1 h2
      simp [charListLe, ne_of_lt hac, hac]

theorem cellLe_refl (a : Cell) : cellLe a a = true := by
  cases a with
  | na => rfl
  | num x => simp [cellLe]
  | str s => simp [cellLe, strLe, charListLe_refl]
  | boolean b => cases b <;> rfl

theorem cellLe_total (a b : Cell) : cellLe a b = true ∨ cellLe b a = true := by
  cases a <;> cases b <;>
    simp only [cellLe, strLe, Cell.rank, decide_eq_true_eq, Bool.or_eq_true,
      Bool.not_eq_true'] <;>
    first
      | exact Or.inl (by omega)
      | exact Or.inr (by omega)
      | exact le_total _ _
      | exact charListLe_total _ _
      | (rename_i x y; cases x <;> cases y <;> simp)

theorem cellLe_antisymm (a b : Cell) (h1 : cellLe a b = true) (h2 : cellLe b a = true) :
    a = b := by
  cases a <;> cases b <;>
    simp only [cellLe, strLe, Cell.rank, decide_eq_true_eq, Bool.or_eq_true,
      Bool.not_eq_true'] at h1 h2 <;>
    first
      | rfl
      | omega
      | (exact congrArg Cell.num (le_antisymm h1 h2))
      | skip
  · rename_i s t
    have hd : s.data = t.data := charListLe_antisymm _ _ h1 h2
    cases s
    cases t
    exact congrArg Cell.str (congrArg String.mk hd)
  · rename_i x y
    cases x <;> cases y <;> simp_all

theorem cellLe_trans (a b c : Cell) (h1 : cellLe a b = true) (h2 : cellLe b c = true) :
    cellLe a c = true := by
  cases a <;> cases b <;> cases c <;>
    simp only [cellLe, strLe, Cell.rank, decide_eq_true_eq, Bool.or_eq_true,
      Bool.not_eq_true'] at h1 h2 ⊢ <;>
    first
      | trivial
      | omega
      | (exact le_trans h1 h2)
      | (exact charListLe_trans _ _ _ h1 h2)
      | (rename_i x y z; cases x <;> cases y <;> cases z <;> simp_all)

theorem foldlMin_mem : ∀ (xs : List Cell) (x : Cell),
    xs.foldl (fun a b => if cellLe a b then a else b) x ∈ x :: xs
  | [], x => List.mem_singleton.mpr rfl
  | b :: bs, x => by
    simp only [List.foldl_cons]
    by_cases h : cellLe x b = true
    · rw [if_pos h]
      rcases List.mem_cons.mp (foldlMin_mem bs x) with h' | h'
      · rw [h']
        exact List.mem_cons_self _ _
      · exact List.mem_cons_of_mem _ (List.mem_cons_of_mem _ h')
    · rw [if_neg h]
      rcases List.mem_cons.mp (foldlMin_mem bs b) with h' | h'
      · rw [h']
        exact List.mem_cons_of_mem _ (List.mem_cons_self _ _)
      · exact List.mem_cons_of_mem _ (List.mem_cons_of_mem _ h')

theorem foldlMin_le : ∀ (xs : List Cell) (x y : Cell), y ∈ x :: xs →
    cellLe (xs.foldl (fun a b => if cellLe a b then a else b) x) y = true
  | [], x, y, hy => by
    rw [List.mem_singleton.mp hy]
    exact cellLe_refl _
  | b :: bs, x, y, hy => by
    simp only [List.foldl_cons]
    by_cases h : cellLe x b = true
    · rw [if_pos h]
      rcases List.mem_cons.mp hy with hy' | hy'
      · rw [hy']
        exact foldlMin_le bs x x (List.mem_cons_self _ _)
      · rcases List.mem_cons.mp hy' with hy'' | hy''
        · rw [hy'']
          exact cellLe_trans _ _ _ (foldlMin_le bs x x (List.mem_cons_self _ _)) h
        · exact foldlMin_le bs x y (List.mem_cons_of_mem _ hy'')
    · rw [if_neg h]
      have hbx : cellLe b x = true := by
        rcases cellLe_total x b with h' | h'
        · exact absurd h' h
        · exact h'
      rcases List.mem_cons.mp hy with hy' | hy'
      · rw [hy']
        exact cellLe_trans _ _ _ (foldlMin_le bs b b (List.mem_cons_self _ _)) hbx
      · rcases List.mem_cons.mp hy' with hy'' | hy''
        · rw [hy'']
          exact foldlMin_le bs b b (List.mem_cons_self _ _)
        · exact foldlMin_le bs b y (List.mem_cons_of_mem _ hy'')

theorem minCell_spec (l : List Cell) (v : Cell) :
    minCell l = some v ↔ v ∈ l ∧ ∀ w ∈ l, cellLe v w = true := by
  constructor
  · intro h
    cases l with
    | nil => simp [minCell] at h
    | cons x xs =>
      have hv : v = xs.foldl (fun a b => if cellLe a b then a else b) x := by
        simpa [minCell] using h.symm
      subst hv
      exact ⟨foldlMin_mem xs x, fun w hw => foldlMin_le xs x w hw⟩
  · rintro ⟨hv, hmin⟩
    cases l with
    | nil => simp at hv
    | cons x xs =>
      have hm := foldlMin_mem xs x
      have h1 : cellLe (xs.foldl (fun a b => if cellLe a b then a else b) x) v = true :=
        foldlMin_le xs x v hv
      have h2 : cellLe v (xs.foldl (fun a b => if cellLe a b then a else b) x) = true :=
        hmin _ hm
      simpa [minCell] using cellLe_antisymm _ _ h1 h2

theorem minCell_eq_none (l : List Cell) : minCell l = none ↔ l = [] := by
  cases l <;> simp [minCell]

theorem mem_le_foldrMax (L : List ℕ) (x : ℕ) (hx : x ∈ L) : x ≤ L.foldr max 0 := by
  induction L with
  | nil => simp at hx
  | cons a L ih =>
    rcases List.mem_cons.mp hx with hx' | hx'
    · rw [hx']
      exact le_max_left _ _
    · exact le_trans (ih hx') (le_max_right _ _)

theorem foldrMax_mem (L : List ℕ) (h : L ≠ []) : L.foldr max 0 ∈ L := by
  induction L with
  | nil => exact absurd rfl h
  | cons a L ih =>
    cases L with
    | nil => simp
    | cons b M =>
      rcases max_choice a ((b :: M).foldr max 0) with h' | h'
      · simp only [List.foldr_cons] at h' ⊢
        rw [h']
        exact List.mem_cons_self _ _
      · simp only [List.foldr_cons] at h' ⊢
        rw [h']
        exact List.mem_cons_of_mem _ (ih (by simp))

theorem count_le_maxCount (l : List Cell) (v : Cell) (h : v ∈ l) :
    l.count v ≤ maxCount l :=
  mem_le_foldrMax _ _ (List.mem_map_of_mem _ h)

theorem maxCount_eq_count (l : List Cell) (h : l ≠ []) :
    ∃ v ∈ l, l.count v = maxCount l := by
  have hmem : maxCount l ∈ l.map (fun v => l.count v) :=
    foldrMax_mem _ (by simpa using h)
  rcases List.mem_map.mp hmem with ⟨v, hv, hc⟩
  exact ⟨v, hv, hc⟩

theorem maxCount_perm {l l' : List Cell} (h : l.Perm l') : maxCount l = maxCount l' := by
  rcases eq_or_ne l [] with rfl | hne
  · rw [← h.nil_eq]
  · have hne' : l' ≠ [] := fun h' => hne (List.Perm.eq_nil (h' ▸ h))
    apply le_antisymm
    · rcases maxCount_eq_count l hne with ⟨v, hv, hc⟩
      rw [← hc, h.count_eq]
      exact count_le_maxCount _ _ (h.mem_iff.mp hv)
    · rcases maxCount_eq_count l' hne' with ⟨v, hv, hc⟩
      rw [← hc, ← h.count_eq]
      exact count_le_maxCount _ _ (h.mem_iff.mpr hv)

theorem mem_modes (cells : List Cell) (v : Cell) :
    v ∈ modes cells ↔
      v ∈ nonMissing cells ∧ (nonMissing cells).count v = maxCount (nonMissing cells) := by
  simp [modes, List.mem_filter, List.mem_dedup, Nat.beq_eq_true_eq]

theorem mode_eq_some_iff (cells : List Cell) (v : Cell) :
    mode cells = some v ↔ v ∈ modes cells ∧ ∀ w ∈ modes cells, cellLe v w = true :=
  minCell_spec _ v

theorem mode_mem (cells : List Cell) (v : Cell) (h : mode cells = some v) :
    v ∈ nonMissing cells :=
  ((mem_modes _ _).mp ((mode_eq_some_iff _ _).mp h).1).1

theorem mode_perm {cells cells' : List Cell} (h : cells.Perm cells') :
    mode cells = mode cells' := by
  have hnm : (nonMissing cells).Perm (nonMissing cells') := h.filter _
  have hmodes : ∀ v, v ∈ modes cells ↔ v ∈ modes cells' := by
    intro v
    rw [mem_modes, mem_modes, hnm.mem_iff, hnm.count_eq, maxCount_perm hnm]
  cases hc : mode cells' with
  | none =>
    rw [mode, minCell_eq_none] at hc ⊢
    rw [List.eq_nil_iff_forall_not_mem] at hc ⊢
    intro v hv
    exact hc v ((hmodes v).mp hv)
  | some v =>
    rcases (mode_eq_some_iff _ _).mp hc with ⟨hv, hmin⟩
    exact (mode_eq_some_iff _ _).mpr
      ⟨(hmodes v).mpr hv, fun w hw => hmin w ((hmodes w).mp hw)⟩

theorem ratFloor_eq_floor (q : ℚ) : ratFloor q = ⌊q⌋ := by
  rw [Rat.floor_def, ratFloor, Int.fdiv_eq_ediv _ (by positivity)]

theorem ratFloor_le (q : ℚ) : (ratFloor q : ℚ) ≤ q := by
  rw [ratFloor_eq_floor]
  exact Int.floor_le q

theorem ratFloor_nonneg {q : ℚ} (h : 0 ≤ q) : 0 ≤ ratFloor q := by
  rw [ratFloor_eq_floor]
  exact Int.floor_nonneg.mpr h

theorem ratFloorNat_le {p : ℚ} (h : 0 ≤ p) : (((ratFloor p).toNat : ℕ) : ℚ) ≤ p := by
  have h1 : (((ratFloor p).toNat : ℕ) : ℤ) = ratFloor p := Int.toNat_of_nonneg (ratFloor_nonneg h)
  have h2 : (((ratFloor p).toNat : ℕ) : ℚ) = ((ratFloor p : ℤ) : ℚ) := by
    exact_mod_cast h1
  rw [h2]
  exact ratFloor_le p

theorem lt_ratFloorNat_add_one {p : ℚ} (h : 0 ≤ p) :
    p < (((ratFloor p).toNat : ℕ) : ℚ) + 1 := by
  have h1 : (((ratFloor p).toNat : ℕ) : ℤ) = ratFloor p := Int.toNat_of_nonneg (ratFloor_nonneg h)
  have h2 : (((ratFloor p).toNat : ℕ) : ℚ) = ((ratFloor p : ℤ) : ℚ) := by
    exact_mod_cast h1
  rw [h2, ratFloor_eq_floor]
  exact_mod_cast Int.lt_floor_add_one p

theorem ratFloorNat_mono {p p' : ℚ} (h0 : 0 ≤ p) (hpp : p ≤ p') :
    (ratFloor p).toNat ≤ (ratFloor p').toNat := by
  apply Int.toNat_le_toNat
  rw [ratFloor_eq_floor, ratFloor_eq_floor]
  exact Int.floor_le_floor hpp

theorem sorted_getD_le {s : List ℚ} (hs : s.Sorted (· ≤ ·)) {i j : ℕ}
    (hij : i ≤ j) (hj : j < s.length) : s.getD i 0 ≤ s.getD j 0 := by
  have hi : i < s.length := lt_of_le_of_lt hij hj
  rw [List.getD_eq_getElem _ _ hi, List.getD_eq_getElem _ _ hj]
  have := @List.Sorted.rel_get_of_le _ _ _ _ hs ⟨i, hi⟩ ⟨j, hj⟩ hij
  simpa [List.get_eq_getElem] using this

theorem interpAt_index_lt {s : List ℚ} {p : ℚ} (h0 : 0 ≤ p)
    (hp : p ≤ (s.length : ℚ) - 1) : (ratFloor p).toNat < s.length := by
  have h1 : (((ratFloor p).toNat : ℕ) : ℚ) ≤ (s.length : ℚ) - 1 :=
    le_trans (ratFloorNat_le h0) hp
  have h2 : (((ratFloor p).toNat : ℕ) : ℚ) + 1 ≤ (s.length : ℚ) := by linarith
  exact_mod_cast h2

theorem interpAt_bounds {s : List ℚ} (hs : s.Sorted (· ≤ ·)) {p : ℚ}
    (h0 : 0 ≤ p) (hp : p ≤ (s.length : ℚ) - 1) :
    s.getD (ratFloor p).toNat 0 ≤ interpAt s p ∧
      interpAt s p ≤ s.getD ((ratFloor p).toNat + 1) (s.getD (ratFloor p).toNat 0) := by
  have hilt : (ratFloor p).toNat < s.length := interpAt_index_lt h0 hp
  have hile : (((ratFloor p).toNat : ℕ) : ℚ) ≤ p := ratFloorNat_le h0
  have hfrac : p < (((ratFloor p).toNat : ℕ) : ℚ) + 1 := lt_ratFloorNat_add_one h0
  have hab : s.getD (ratFloor p).toNat 0 ≤
      s.getD ((ratFloor p).toNat + 1) (s.getD (ratFloor p).toNat 0) := by
    rcases lt_or_ge ((ratFloor p).toNat + 1) s.length with hlt | hge
    · rw [List.getD_eq_getElem _ _ hlt, ← List.getD_eq_getElem s 0 hlt]
      exact sorted_getD_le hs (Nat.le_succ _) hlt
    · rw [List.getD_eq_default _ _ hge]
  constructor
  · simp only [interpAt]
    nlinarith [mul_nonneg (sub_nonneg.mpr hile) (sub_nonneg.mpr hab)]
  · simp only [interpAt]
    nlinarith [mul_nonneg (sub_nonneg.mpr (le_of_lt hfrac)) (sub_nonneg.mpr hab)]

theorem interpAt_mono {s : List ℚ} (hs : s.Sorted (· ≤ ·)) {p p' : ℚ}
    (h0 : 0 ≤ p) (hpp : p ≤ p') (hp' : p' ≤ (s.length : ℚ) - 1) :
    interpAt s p ≤ interpAt s p' := by
  have h0' : 0 ≤ p' := le_trans h0 hpp
  have hp : p ≤ (s.length : ℚ) - 1 := le_trans hpp hp'
  have hii : (ratFloor p).toNat ≤ (ratFloor p').toNat := ratFloorNat_mono h0 hpp
  rcases eq_or_lt_of_le hii with heq | hlt
  · have hab : s.getD (ratFloor p).toNat 0 ≤
        s.getD ((ratFloor p).toNat + 1) (s.getD (ratFloor p).toNat 0) := by
      rcases lt_or_ge ((ratFloor p).toNat + 1) s.length with hlt' | hge
      · rw [List.getD_eq_getElem _ _ hlt', ← List.getD_eq_getElem s 0 hlt']
        exact sorted_getD_le hs (Nat.le_succ _) hlt'
      · rw [List.getD_eq_default _ _ hge]
    simp only [interpAt, ← heq]
    nlinarith [mul_nonneg (sub_nonneg.mpr hpp) (sub_nonneg.mpr hab)]
  · have hi'lt : (ratFloor p').toNat < s.length := interpAt_index_lt h0' hp'
    have hi1lt : (ratFloor p).toNat + 1 < s.length := lt_of_le_of_lt hlt hi'lt
    have h1 : interpAt s p ≤ s.getD ((ratFloor p).toNat + 1) 0 := by
      have := (interpAt_bounds hs h0 hp).2
      rwa [List.getD_eq_getElem _ _ hi1lt, ← List.getD_eq_getElem s 0 hi1lt] at this
    have h2 : s.getD ((ratFloor p).toNat + 1) 0 ≤ s.getD (ratFloor p').toNat 0 :=
      sorted_getD_le hs hlt hi'lt
    have h3 : s.getD (ratFloor p').toNat 0 ≤ interpAt s p' :=
      (interpAt_bounds hs h0' hp').1
    linarith

theorem quantileLinear_eq_some {xs : List ℚ} (h : xs ≠ []) (q : ℚ) :
    quantileLinear xs q =
      some (interpAt (xs.insertionSort (· ≤ ·)) (((xs.length : ℚ) - 1) * q)) := by
  simp [quantileLinear, h]

theorem quantileLinear_eq_none_iff (xs : List ℚ) (q : ℚ) :
    quantileLinear xs q = none ↔ xs = [] := by
  cases xs <;> simp [quantileLinear]

theorem quantile_le_quantile {xs : List ℚ} (h : xs ≠ []) {q q' : ℚ}
    (h0 : 0 ≤ q) (hqq : q ≤ q') (hq1 : q' ≤ 1) :
    (quantileLinear xs q).getD 0 ≤ (quantileLinear xs q').getD 0 := by
  rw [quantileLinear_eq_some h, quantileLinear_eq_some h]
  simp only [Option.getD_some]
  have hsort : (xs.insertionSort (· ≤ ·)).Sorted (· ≤ ·) :=
    List.sorted_insertionSort _ _
  have hlen : (xs.insertionSort (· ≤ ·)).length = xs.length :=
    List.length_insertionSort _ _
  have hn : 1 ≤ (xs.length : ℚ) := by
    have h1 : 1 ≤ xs.length := List.length_pos.mpr h
    exact_mod_cast h1
  apply interpAt_mono hsort
  · exact mul_nonneg (by linarith) h0
  · exact mul_le_mul_of_nonneg_left hqq (by linarith)
  · rw [hlen]
    nlinarith

theorem countNa_eq_zero_iff (cells : List Cell) : countNa cells = 0 ↔ Cell.na ∉ cells := by
  rw [countNa, List.count_eq_zero]

theorem countNa_pos_iff (cells : List Cell) : 0 < countNa cells ↔ Cell.na ∈ cells := by
  rw [countNa, List.count_pos_iff_mem]

theorem countNa_fillCells (cells : List Cell) {v : Cell} (hv : v ≠ Cell.na) :
    countNa (fillCells cells v) = 0 := by
  rw [countNa, List.count_eq_zero]
  intro hmem
  rcases List.mem_map.mp hmem with ⟨x, _, hx⟩
  by_cases h : x = Cell.na
  · rw [if_pos h] at hx
    exact hv hx
  · rw [if_neg h] at hx
    exact h hx

theorem mode_ne_na {cells : List Cell} {v : Cell} (h : mode cells = some v) :
    v ≠ Cell.na := by
  have hmem := mode_mem _ _ h
  simp only [nonMissing, List.mem_filter, decide_eq_true_eq] at hmem
  exact hmem.2

theorem nonMissingNums_ne_nil {cells : List Cell}
    (hok : ∀ x ∈ cells, cellOk Dtype.numeric x = true)
    (hex : ∃ x ∈ cells, x ≠ Cell.na) : nonMissingNums cells ≠ [] := by
  rcases hex with ⟨x, hx, hne⟩
  have hokx := hok x hx
  cases x with
  | na => exact absurd rfl hne
  | num v =>
    intro hnil
    have hv : v ∈ nonMissingNums cells := by
      rw [nonMissingNums]
      exact List.mem_filterMap.mpr ⟨Cell.num v, hx, rfl⟩
    rw [hnil] at hv
    exact List.not_mem_nil _ hv
  | str s => simp [cellOk] at hokx
  | boolean b => simp [cellOk] at hokx

theorem exists_non_na_of_count_lt {cells : List Cell} (h : countNa cells < cells.length) :
    ∃ x ∈ cells, x ≠ Cell.na := by
  by_contra hall
  push_neg at hall
  have : countNa cells = cells.length := by
    rw [countNa, List.count_eq_length]
    intro b hb
    exact (hall b hb).symm
  omega

theorem totalMissing_eq_zero_iff (d : Dataset) :
    totalMissing d = 0 ↔ ∀ c ∈ d.cols, countNa c.cells = 0 := by
  rw [totalMissing, List.sum_eq_zero_iff]
  constructor
  · intro h c hc
    exact h _ (List.mem_map_of_mem _ hc)
  · intro h n hn
    rcases List.mem_map.mp hn with ⟨c, hc, rfl⟩
    exact h c hc

theorem standardizeColumns_nrows (d : Dataset) : (standardizeColumns d).1.nrows = d.nrows := rfl

theorem totalMissing_standardize (d : Dataset) :
    totalMissing (standardizeColumns d).1 = totalMissing d := by
  rw [totalMissing, standardizeColumns, List.map_map]
  rfl

theorem wf_standardize {d : Dataset} (h : wf d) : wf (standardizeColumns d).1 := by
  intro c hc
  rcases List.mem_map.mp hc with ⟨c0, hc0, rfl⟩
  exact h c0 hc0

theorem dropPass_nrows (d : Dataset) : (dropPass d).1.nrows = d.nrows := by
  rw [dropPass]
  split <;> rfl

theorem mem_dropPass_iff (d : Dataset) (c : Column) :
    c ∈ (dropPass d).1.cols ↔ c ∈ d.cols ∧ ¬(missingPct d c > 95 / 100) := by
  rw [dropPass]
  split
  · rename_i hempty
    have hnil : d.cols.filter (fun c => decide (missingPct d c > 95 / 100)) = [] :=
      List.isEmpty_iff.mp hempty
    have hall := List.filter_eq_nil.mp hnil
    constructor
    · intro hc
      refine ⟨hc, ?_⟩
      have := hall c hc
      simpa using this
    · exact fun hc => hc.1
  · simp only [List.mem_filter, Bool.not_eq_true', decide_eq_false_iff_not]

theorem wf_dropPass {d : Dataset} (h : wf d) : wf (dropPass d).1 := by
  intro c hc
  rw [dropPass_nrows]
  exact h c ((mem_dropPass_iff d c).mp hc).1

theorem dropPass_no_missing {d : Dataset} (h : totalMissing d = 0) :
    dropPass d = (d, [ActionRecord.noColumnsDropped]) := by
  have hall := (totalMissing_eq_zero_iff d).mp h
  have hnil : d.cols.filter (fun c => decide (missingPct d c > 95 / 100)) = [] := by
    rw [List.filter_eq_nil]
    intro c hc
    have hz : missingPct d c = 0 := by
      rw [missingPct, hall c hc]
      simp
    simp only [decide_eq_true_eq, hz]
    norm_num
  rw [dropPass, hnil]
  rfl

theorem dedupPass_nrows (d : Dataset) : (dedupPass d).1.nrows = (keepIdx d).length := by
  rw [dedupPass]
  split <;> rfl

theorem dedupPass_cols (d : Dataset) : (dedupPass d).1.cols =
    d.cols.map (fun c =>
      ⟨c.name, c.dtype, (keepIdx d).map (fun i => c.cells.getD i Cell.na)⟩) := by
  rw [dedupPass]
  split <;> rfl

theorem keepIdx_lt {d : Dataset} {i : ℕ} (h : i ∈ keepIdx d) : i < d.nrows := by
  rw [keepIdx, List.mem_filter] at h
  exact List.mem_range.mp h.1

theorem keepIdx_not_dup {d : Dataset} {i : ℕ} (h : i ∈ keepIdx d) :
    ∀ j < i, rowAt d j ≠ rowAt d i := by
  rw [keepIdx, List.mem_filter] at h
  have h2 := h.2
  rw [Bool.not_eq_eq_eq_not, Bool.not_true, isDupOfEarlier] at h2
  intro j hj heq
  exact List.any_eq_false.mp h2 j (List.mem_range.mpr hj) (decide_eq_true heq)

theorem rowAt_component {d : Dataset} {c : Column} (hc : c ∈ d.cols) {i j : ℕ}
    (h : rowAt d j = rowAt d i) :
    c.cells.getD j Cell.na = c.cells.getD i Cell.na := by
  rcases List.mem_iff_get.mp hc with ⟨n, rfl⟩
  have hn : (n : ℕ) < (rowAt d j).length := by
    simpa [rowAt] using n.isLt
  have h1 := congrArg (fun l => l.getD (n : ℕ) Cell.na) h
  simp only [List.getD_eq_getElem _ _ hn,
    List.getD_eq_getElem _ _ (by simpa [rowAt] using n.isLt : (n : ℕ) < (rowAt d i).length)] at h1
  simpa [rowAt, List.getElem_map, List.get_eq_getElem] using h1

theorem dedup_keeps_value {d : Dataset} (hwf : wf d) {c : Column} (hc : c ∈ d.cols)
    (hex : ∃ x ∈ c.cells, x ≠ Cell.na) :
    ∃ x ∈ (keepIdx d).map (fun i => c.cells.getD i Cell.na), x ≠ Cell.na := by
  have hlen : c.cells.length = d.nrows := (hwf c hc).1
  have hexi : ∃ i : ℕ, i < c.cells.length ∧ c.cells.getD i Cell.na ≠ Cell.na := by
    rcases hex with ⟨x, hx, hne⟩
    rcases List.mem_iff_get.mp hx with ⟨n, rfl⟩
    refine ⟨(n : ℕ), n.isLt, ?_⟩
    rw [List.getD_eq_getElem _ _ n.isLt]
    simpa [List.get_eq_getElem] using hne
  have hP := Nat.find_spec hexi
  have hkeep : Nat.find hexi ∈ keepIdx d := by
    rw [keepIdx, List.mem_filter]
    refine ⟨List.mem_range.mpr (by omega), ?_⟩
    rw [Bool.not_eq_eq_eq_not, Bool.not_true, isDupOfEarlier, List.any_eq_false]
    intro j hj hdec
    have heq := of_decide_eq_true hdec
    have hcomp := rowAt_component hc heq
    have hjlt : j < Nat.find hexi := List.mem_range.mp hj
    have hmin := Nat.find_min hexi hjlt
    push_neg at hmin
    have hcontra := hmin (by omega)
    rw [hcomp] at hcontra
    exact hP.2 hcontra
  exact ⟨c.cells.getD (Nat.find hexi) Cell.na,
    List.mem_map_of_mem _ hkeep, hP.2⟩

theorem wf_dedupPass {d : Dataset} (hwf : wf d) : wf (dedupPass d).1 := by
  intro c hc
  rw [dedupPass_cols] at hc
  rcases List.mem_map.mp hc with ⟨c0, hc0, rfl⟩
  constructor
  · rw [dedupPass_nrows]
    simp
  · intro x hx
    rcases List.mem_map.mp hx with ⟨i, hi, rfl⟩
    have hilt : i < c0.cells.length := by
      rw [(hwf c0 hc0).1]
      exact keepIdx_lt hi
    rw [List.getD_eq_getElem _ _ hilt]
    exact (hwf c0 hc0).2 _ (List.getElem_mem _)

theorem totalMissing_dedupPass {d : Dataset} (hwf : wf d) (h : totalMissing d = 0) :
    totalMissing (dedupPass d).1 = 0 := by
  rw [totalMissing_eq_zero_iff] at h ⊢
  intro c hc
  rw [dedupPass_cols] at hc
  rcases List.mem_map.mp hc with ⟨c0, hc0, rfl⟩
  rw [countNa_eq_zero_iff]
  intro hmem
  rcases List.mem_map.mp hmem with ⟨i, hi, hna⟩
  have hilt : i < c0.cells.length := by
    rw [(hwf c0 hc0).1]
    exact keepIdx_lt hi
  rw [List.getD_eq_getElem _ _ hilt] at hna
  exact (countNa_eq_zero_iff _).mp (h c0 hc0) (hna ▸ List.getElem_mem _)

theorem dedupPass_log (d : Dataset) : ∀ r ∈ (dedupPass d).2,
    isDedupRecord r = true ∨ r = ActionRecord.noDuplicates := by
  intro r hr
  simp only [dedupPass] at hr
  split at hr
  · left
    rw [List.mem_singleton.mp hr]
    rfl
  · right
    exact List.mem_singleton.mp hr

theorem imputePass_nrows (d : Dataset) : (imputePass d).1.nrows = d.nrows := rfl

theorem imputePass_cols (d : Dataset) :
    (imputePass d).1.cols = d.cols.map (fun c => (imputeCol c).1) := by
  simp only [imputePass, List.map_map]
  rfl

theorem outlierPass_nrows (d : Dataset) : (outlierPass d).1.nrows = d.nrows := rfl

theorem outlierPass_cols (d : Dataset) :
    (outlierPass d).1.cols = d.cols.map (fun c => (outlierCol c).1) := by
  simp only [outlierPass, List.map_map]
  rfl

theorem imputeCol_of_no_missing {c : Column} (h : countNa c.cells = 0) :
    imputeCol c = (c, []) := by
  rw [imputeCol, if_neg (by omega)]

theorem imputeCol_shape (c : Column) :
    (imputeCol c).1.name = c.name ∧ (imputeCol c).1.dtype = c.dtype ∧
      (imputeCol c).1.cells.length = c.cells.length := by
  by_cases hm : countNa c.cells > 0
  · by_cases hd : c.dtype = Dtype.numeric
    · cases hq : quantileLinear (nonMissingNums c.cells) (1 / 2) with
      | none =>
        simp only [imputeCol, if_pos hm, if_pos hd, hq]
        simp
      | some med =>
        simp only [imputeCol, if_pos hm, if_pos hd, hq]
        simp [fillCells]
    · simp only [imputeCol, if_pos hm, if_neg hd]
      simp [fillCells]
  · simp only [imputeCol, if_neg hm]
    simp

theorem imputeCol_typed {c : Column} (hl : ∀ x ∈ c.cells, cellOk c.dtype x = true) :
    ∀ x ∈ (imputeCol c).1.cells, cellOk c.dtype x = true := by
  intro x hx
  by_cases hm : countNa c.cells > 0
  · by_cases hd : c.dtype = Dtype.numeric
    · cases hq : quantileLinear (nonMissingNums c.cells) (1 / 2) with
      | none =>
        simp only [imputeCol, if_pos hm, if_pos hd, hq] at hx
        exact hl x hx
      | some med =>
        simp only [imputeCol, if_pos hm, if_pos hd, hq] at hx
        rcases List.mem_map.mp hx with ⟨y, hy, rfl⟩
        by_cases hyna : y = Cell.na
        · rw [if_pos hyna, hd]
          rfl
        · rw [if_neg hyna]
          exact hl y hy
    · have hna : Cell.na ∈ c.cells := (countNa_pos_iff _).mp hm
      have hobj : c.dtype = Dtype.object := by
        cases hdt : c.dtype
        · exact absurd hdt hd
        · rfl
        · have hcontra := hl _ hna
          rw [hdt] at hcontra
          simp [cellOk] at hcontra
      simp only [imputeCol, if_pos hm, if_neg hd] at hx
      rcases List.mem_map.mp hx with ⟨y, hy, rfl⟩
      by_cases hyna : y = Cell.na
      · rw [if_pos hyna]
        cases hmo : mode c.cells with
        | none =>
          simp only [hmo, Option.getD_none]
          rw [hobj]
          rfl
        | some v =>
          simp only [hmo, Option.getD_some]
          exact hl v (List.mem_filter.mp (mode_mem _ _ hmo)).1
      · rw [if_neg hyna]
        exact hl y hy
  · simp only [imputeCol, if_neg hm] at hx
    exact hl x hx

theorem countNa_imputeCol {c : Column}
    (h : c.dtype = Dtype.numeric → 0 < countNa c.cells → nonMissingNums c.cells ≠ []) :
    countNa (imputeCol c).1.cells = 0 := by
  by_cases hm : countNa c.cells > 0
  · by_cases hd : c.dtype = Dtype.numeric
    · have hne := h hd hm
      cases hq : quantileLinear (nonMissingNums c.cells) (1 / 2) with
      | none => exact absurd ((quantileLinear_eq_none_iff _ _).mp hq) hne
      | some med =>
        have hcell : (imputeCol c).1.cells = fillCells c.cells (Cell.num med) := by
          simp only [imputeCol, if_pos hm, if_pos hd, hq]
        rw [hcell]
        exact countNa_fillCells _ (by simp)
    · have hcell : (imputeCol c).1.cells =
          fillCells c.cells ((mode c.cells).getD (Cell.str "Unknown")) := by
        simp only [imputeCol, if_pos hm, if_neg hd]
      rw [hcell]
      apply countNa_fillCells
      cases hmo : mode c.cells with
      | none => simp
      | some v =>
        simp only [Option.getD_some]
        exact mode_ne_na hmo
  · simp only [imputeCol, if_neg hm]
    omega

theorem imputeCol_log (c : Column) : ∀ r ∈ (imputeCol c).2, isFillRecord r = true := by
  intro r hr
  by_cases hm : countNa c.cells > 0
  · by_cases hd : c.dtype = Dtype.numeric
    · cases hq : quantileLinear (nonMissingNums c.cells) (1 / 2) with
      | none =>
        simp only [imputeCol, if_pos hm, if_pos hd, hq] at hr
        rw [List.mem_singleton.mp hr]
        rfl
      | some med =>
        simp only [imputeCol, if_pos hm, if_pos hd, hq] at hr
        rw [List.mem_singleton.mp hr]
        rfl
    · simp only [imputeCol, if_pos hm, if_neg hd] at hr
      rw [List.mem_singleton.mp hr]
      rfl
  · simp only [imputeCol, if_neg hm] at hr
    exact absurd hr (List.not_mem_nil _)

theorem wf_imputePass {d : Dataset} (hwf : wf d) : wf (imputePass d).1 := by
  intro c hc
  rw [imputePass_cols] at hc
  rcases List.mem_map.mp hc with ⟨c0, hc0, rfl⟩
  refine ⟨?_, ?_⟩
  · rw [(imputeCol_shape c0).2.2, imputePass_nrows]
    exact (hwf c0 hc0).1
  · rw [(imputeCol_shape c0).2.1]
    exact imputeCol_typed (hwf c0 hc0).2

theorem cellOk_num_congr (dt : Dtype) (a b : ℚ) :
    cellOk dt (Cell.num a) = cellOk dt (Cell.num b) := by
  cases dt <;> rfl

theorem outlierCol_structure (c : Column) :
    (outlierCol c).1 = c ∨
      ∃ lo hi, (outlierCol c).1 = ⟨c.name, c.dtype, c.cells.map (capCell lo hi)⟩ := by
  by_cases hd : c.dtype = Dtype.numeric
  · cases hq1 : quantileLinear (nonMissingNums c.cells) (1 / 4) with
    | none =>
      left
      simp only [outlierCol, if_pos hd, hq1]
    | some q1 =>
      cases hq3 : quantileLinear (nonMissingNums c.cells) (3 / 4) with
      | none =>
        left
        simp only [outlierCol, if_pos hd, hq1, hq3]
      | some q3 =>
        simp only [outlierCol, if_pos hd, hq1, hq3]
        split
        · right
          exact ⟨_, _, rfl⟩
        · left
          rfl
  · left
    simp only [outlierCol, if_neg hd]

theorem outlierCol_log (c : Column) : ∀ r ∈ (outlierCol c).2, isCapRecord r = true := by
  intro r hr
  by_cases hd : c.dtype = Dtype.numeric
  · cases hq1 : quantileLinear (nonMissingNums c.cells) (1 / 4) with
    | none =>
      simp only [outlierCol, if_pos hd, hq1] at hr
      exact absurd hr (List.not_mem_nil _)
    | some q1 =>
      cases hq3 : quantileLinear (nonMissingNums c.cells) (3 / 4) with
      | none =>
        simp only [outlierCol, if_pos hd, hq1, hq3] at hr
        exact absurd hr (List.not_mem_nil _)
      | some q3 =>
        simp only [outlierCol, if_pos hd, hq1, hq3] at hr
        split at hr
        · rw [List.mem_singleton.mp hr]
          rfl
        · exact absurd hr (List.not_mem_nil _)
  · simp only [outlierCol, if_neg hd] at hr
    exact absurd hr (List.not_mem_nil _)

theorem countNa_map_capCell (lo hi : ℚ) (cells : List Cell) :
    countNa (cells.map (capCell lo hi)) = countNa cells := by
  induction cells with
  | nil => rfl
  | cons x xs ih =>
    simp only [List.map_cons, countNa, List.count_cons] at ih ⊢
    rw [ih]
    congr 1
    cases x <;> simp [capCell]

theorem countNa_outlierCol (c : Column) :
    countNa (outlierCol c).1.cells = countNa c.cells := by
  rcases outlierCol_structure c with h | ⟨lo, hi, h⟩
  · rw [h]
  · rw [h]
    exact countNa_map_capCell lo hi c.cells

theorem totalMissing_outlierPass (d : Dataset) :
    totalMissing (outlierPass d).1 = totalMissing d := by
  rw [totalMissing, totalMissing, outlierPass_cols, List.map_map]
  congr 1
  apply List.map_congr_left
  intro c _
  exact countNa_outlierCol c

theorem wf_outlierPass {d : Dataset} (hwf : wf d) : wf (outlierPass d).1 := by
  intro c hc
  rw [outlierPass_cols] at hc
  rcases List.mem_map.mp hc with ⟨c0, hc0, rfl⟩
  rcases outlierCol_structure c0 with h | ⟨lo, hi, h⟩
  · rw [h, outlierPass_nrows]
    exact hwf c0 hc0
  · rw [h, outlierPass_nrows]
    refine ⟨by simpa using (hwf c0 hc0).1, ?_⟩
    intro x hx
    rcases List.mem_map.mp hx with ⟨y, hy, rfl⟩
    have hok := (hwf c0 hc0).2 y hy
    cases y with
    | num v => rw [capCell, cellOk_num_congr c0.dtype _ v]; exact hok
    | na => exact hok
    | str s => exact hok
    | boolean b => exact hok

theorem countNa_le_length (cells : List Cell) : countNa cells ≤ cells.length := by
  rw [countNa]
  exact List.count_le_length _ _

theorem dropPass_log (d : Dataset) : ∀ r ∈ (dropPass d).2,
    isDropRecord r = true ∨ r = ActionRecord.noColumnsDropped := by
  intro r hr
  rw [dropPass] at hr
  split at hr
  · right
    exact List.mem_singleton.mp hr
  · left
    rcases List.mem_map.mp hr with ⟨c, _, rfl⟩
    rfl

theorem imputePass_log (d : Dataset) : ∀ r ∈ (imputePass d).2,
    isFillRecord r = true ∨ r = ActionRecord.noMissingToFill := by
  intro r hr
  simp only [imputePass] at hr
  split at hr
  · right
    exact List.mem_singleton.mp hr
  · left
    rcases List.mem_flatten.mp hr with ⟨l, hl, hrl⟩
    rw [List.map_map] at hl
    rcases List.mem_map.mp hl with ⟨c, _, rfl⟩
    exact imputeCol_log c r hrl

theorem outlierPass_log (d : Dataset) : ∀ r ∈ (outlierPass d).2,
    isCapRecord r = true ∨ r = ActionRecord.noOutliers := by
  intro r hr
  simp only [outlierPass] at hr
  split at hr
  · right
    exact List.mem_singleton.mp hr
  · left
    rcases List.mem_flatten.mp hr with ⟨l, hl, hrl⟩
    rw [List.map_map] at hl
    rcases List.mem_map.mp hl with ⟨c, _, rfl⟩
    exact outlierCol_log c r hrl

theorem imputePass_no_missing {d : Dataset} (h : totalMissing d = 0) :
    imputePass d = (d, [ActionRecord.noMissingToFill]) := by
  have hall := (totalMissing_eq_zero_iff d).mp h
  have hcol : ∀ c ∈ d.cols, imputeCol c = (c, []) := fun c hc =>
    imputeCol_of_no_missing (hall c hc)
  have hrecs : (((d.cols.map imputeCol).map (fun r => r.2)).flatten : List ActionRecord) = [] := by
    rw [List.map_map]
    rw [List.flatten_eq_nil_iff]
    intro l hl
    rcases List.mem_map.mp hl with ⟨c, hc, rfl⟩
    simp [Function.comp, hcol c hc]
  have hcols : (d.cols.map imputeCol).map (fun r => r.1) = d.cols := by
    rw [List.map_map]
    have : ∀ c ∈ d.cols, ((fun r : Column × List ActionRecord => r.1) ∘ imputeCol) c = c := by
      intro c hc
      simp [Function.comp, hcol c hc]
    rw [List.map_congr_left this]
    exact List.map_id _
  simp only [imputePass, hrecs, hcols, List.isEmpty_nil, if_pos]

theorem dedup_drop_col_has_num {d : Dataset} (hwf : wf d) {c2 : Column}
    (hc2 : c2 ∈ ((dedupPass ((dropPass d).1)).1).cols)
    (hd : c2.dtype = Dtype.numeric) (hm : 0 < countNa c2.cells) :
    nonMissingNums c2.cells ≠ [] := by
  have hwf1 : wf (dropPass d).1 := wf_dropPass hwf
  have hwf2 : wf (dedupPass (dropPass d).1).1 := wf_dedupPass hwf1
  have hc2' := hc2
  rw [dedupPass_cols] at hc2'
  rcases List.mem_map.mp hc2' with ⟨c1, hc1, rfl⟩
  have hlen1 : c1.cells.length = (dropPass d).1.nrows := (hwf1 c1 hc1).1
  have hna : Cell.na ∈ (keepIdx (dropPass d).1).map (fun i => c1.cells.getD i Cell.na) :=
    (countNa_pos_iff _).mp hm
  rcases List.mem_map.mp hna with ⟨i, hi, hieq⟩
  have hilt : i < c1.cells.length := by
    rw [hlen1]
    exact keepIdx_lt hi
  have hna1 : Cell.na ∈ c1.cells := by
    rw [List.getD_eq_getElem _ _ hilt] at hieq
    exact hieq ▸ List.getElem_mem _
  have hm1 : 0 < countNa c1.cells := (countNa_pos_iff _).mpr hna1
  have hdropinfo := (mem_dropPass_iff d c1).mp hc1
  have hlen1' : c1.cells.length = d.nrows := (hwf c1 hdropinfo.1).1
  have hnrpos : 0 < d.nrows := by
    rcases Nat.eq_zero_or_pos d.nrows with h0 | h0
    · have := countNa_le_length c1.cells
      omega
    · exact h0
  have hpos : (0 : ℚ) < (d.nrows : ℚ) := by exact_mod_cast hnrpos
  have hratio : (countNa c1.cells : ℚ) / (d.nrows : ℚ) ≤ 95 / 100 := by
    have := hdropinfo.2
    rw [missingPct] at this
    linarith [not_lt.mp this]
  have hcle : (countNa c1.cells : ℚ) ≤ 95 / 100 * (d.nrows : ℚ) := by
    rw [div_le_iff hpos] at hratio
    linarith
  have hclt : countNa c1.cells < c1.cells.length := by
    rw [hlen1']
    have hq : (countNa c1.cells : ℚ) < (d.nrows : ℚ) := by nlinarith
    exact_mod_cast hq
  have hex := exists_non_na_of_count_lt hclt
  have hex2 := dedup_keeps_value hwf1 hc1 hex
  apply nonMissingNums_ne_nil
  · intro x hx
    have hok := (hwf2 _ hc2).2 x hx
    rwa [hd] at hok
  · exact hex2

theorem missing_resolved {d : Dataset} (hwf : wf d) :
    totalMissing (imputePass ((dedupPass ((dropPass d).1)).1)).1 = 0 := by
  rw [totalMissing_eq_zero_iff]
  intro c hc
  rw [imputePass_cols] at hc
  rcases List.mem_map.mp hc with ⟨c2, hc2, rfl⟩
  apply countNa_imputeCol
  intro hd hm
  exact dedup_drop_col_has_num hwf hc2 hd hm

theorem mode_eq_none_iff (cells : List Cell) :
    mode cells = none ↔ nonMissing cells = [] := by
  rw [mode, minCell_eq_none]
  constructor
  · intro hmodes
    by_contra hne
    rcases maxCount_eq_count (nonMissing cells) hne with ⟨v, hv, hc⟩
    have : v ∈ modes cells := (mem_modes _ _).mpr ⟨hv, hc⟩
    rw [hmodes] at this
    exact List.not_mem_nil _ this
  · intro hnil
    rw [modes, hnil]
    rfl

theorem keepIdx_pairwise (d : Dataset) : (keepIdx d).Pairwise (· < ·) :=
  (List.pairwise_lt_range _).filter _

theorem keepIdx_sublist (d : Dataset) : (keepIdx d).Sublist (List.range d.nrows) :=
  List.filter_sublist _

theorem rowsOf_dedup (d : Dataset) :
    rowsOf (dedupPass d).1 = (keepIdx d).map (rowAt d) := by
  rw [rowsOf, dedupPass_nrows]
  apply List.ext_getElem
  · simp
  · intro j h1 h2
    have hj : j < (keepIdx d).length := by simpa using h2
    rw [List.getElem_map, List.getElem_map, List.getElem_range]
    rw [rowAt, rowAt, dedupPass_cols, List.map_map]
    apply List.map_congr_left
    intro c _
    simp only [Function.comp]
    rw [List.getD_eq_getElem _ _ (by simpa using hj), List.getElem_map]

theorem rowsOf_dedup_pairwise (d : Dataset) :
    (rowsOf (dedupPass d).1).Pairwise (fun r s => r ≠ s) := by
  rw [rowsOf_dedup, List.pairwise_map]
  refine List.Pairwise.imp_of_mem ?_ (keepIdx_pairwise d)
  intro i j _ hj hij heq
  exact keepIdx_not_dup hj i hij heq

theorem rowsOf_dedup_sublist (d : Dataset) :
    (rowsOf (dedupPass d).1).Sublist (rowsOf d) := by
  rw [rowsOf_dedup, rowsOf]
  exact (keepIdx_sublist d).map _

theorem capCell_below {lo hi x : ℚ} (hlh : lo ≤ hi) (h : x < lo) :
    capCell lo hi (Cell.num x) = Cell.num lo := by
  rw [capCell, max_eq_right (le_of_lt h), min_eq_right hlh]

theorem capCell_above {lo hi x : ℚ} (hlh : lo ≤ hi) (h : hi < x) :
    capCell lo hi (Cell.num x) = Cell.num hi := by
  rw [capCell, max_eq_left (le_trans hlh (le_of_lt h)), min_eq_left (le_of_lt h)]

theorem capCell_inside {lo hi x : ℚ} (h1 : lo ≤ x) (h2 : x ≤ hi) :
    capCell lo hi (Cell.num x) = Cell.num x := by
  rw [capCell, max_eq_left h1, min_eq_right h2]

theorem capCell_mem_bounds {lo hi x : ℚ} (hlh : lo ≤ hi) {y : Cell}
    (h : capCell lo hi y = Cell.num x) : lo ≤ x ∧ x ≤ hi := by
  cases y with
  | num v =>
    rw [capCell, Cell.num.injEq] at h
    subst h
    constructor
    · exact le_min hlh (le_max_right v lo)
    · exact min_le_left hi _
  | na => exact absurd h (by simp [capCell])
  | str s => exact absurd h (by simp [capCell])
  | boolean b => exact absurd h (by simp [capCell])

theorem not_fill_of_dedup_log {r : ActionRecord}
    (h : isDedupRecord r = true ∨ r = ActionRecord.noDuplicates) :
    isFillRecord r = false := by
  rcases h with h | rfl
  · cases r <;> simp_all [isDedupRecord, isFillRecord]
  · rfl

theorem not_fill_of_drop_log {r : ActionRecord}
    (h : isDropRecord r = true ∨ r = ActionRecord.noColumnsDropped) :
    isFillRecord r = false := by
  rcases h with h | rfl
  · cases r <;> simp_all [isDropRecord, isFillRecord]
  · rfl

theorem not_drop_of_dedup_log {r : ActionRecord}
    (h : isDedupRecord r = true ∨ r = ActionRecord.noDuplicates) :
    isDropRecord r = false := by
  rcases h with h | rfl
  · cases r <;> simp_all [isDedupRecord, isDropRecord]
  · rfl

theorem not_dedup_of_fill_log {r : ActionRecord}
    (h : isFillRecord r = true ∨ r = ActionRecord.noMissingToFill) :
    isDedupRecord r = false := by
  rcases h with h | rfl
  · cases r <;> simp_all [isFillRecord, isDedupRecord]
  · rfl

theorem not_dedup_of_cap_log {r : ActionRecord}
    (h : isCapRecord r = true ∨ r = ActionRecord.noOutliers) :
    isDedupRecord r = false := by
  rcases h with h | rfl
  · cases r <;> simp_all [isCapRecord, isDedupRecord]
  · rfl

theorem not_drop_fill_of_cap_log {r : ActionRecord}
    (h : isCapRecord r = true ∨ r = ActionRecord.noOutliers) :
    isDropRecord r = false ∧ isFillRecord r = false := by
  rcases h with h | rfl
  · cases r <;> simp_all [isCapRecord, isDropRecord, isFillRecord]
  · exact ⟨rfl, rfl⟩

theorem dtype_partition (l : List Column) :
    l.countP (fun c => decide (c.dtype = Dtype.numeric)) +
      l.countP (fun c => decide (c.dtype = Dtype.object)) +
      l.countP (fun c => decide (c.dtype = Dtype.bool)) = l.length := by
  induction l with
  | nil => rfl
  | cons c l ih =>
    rw [List.countP_cons, List.countP_cons, List.countP_cons, List.length_cons]
    cases hdt : c.dtype <;> simp [hdt] <;> omega

theorem clean_data_fst (d : Dataset) :
    (clean_data d).1 =
      (outlierPass ((imputePass ((dedupPass ((dropPass ((standardizeColumns d).1)).1)).1)).1)).1 :=
  rfl

set_option maxHeartbeats 1000000 in
theorem clean_data_snd (d : Dataset) :
    (clean_data d).2 =
      (standardizeColumns d).2 ++ (dropPass ((standardizeColumns d).1)).2 ++
        (dedupPass ((dropPass ((standardizeColumns d).1)).1)).2 ++
        (imputePass ((dedupPass ((dropPass ((standardizeColumns d).1)).1)).1)).2 ++
        (outlierPass ((imputePass ((dedupPass ((dropPass
            ((standardizeColumns d).1)).1)).1)).1)).2 ++
        [ActionRecord.cleaningComplete (shape d) (shape (clean_data d).1)] := by
  rw [clean_data_fst]
  rfl

theorem wf_clean_data {d : Dataset} (hwf : wf d) : wf (clean_data d).1 := by
  rw [clean_data_fst]
  exact wf_outlierPass (wf_imputePass (wf_dedupPass (wf_dropPass (wf_standardize hwf))))

theorem totalMissing_clean_data {d : Dataset} (hwf : wf d) :
    totalMissing (clean_data d).1 = 0 := by
  rw [clean_data_fst, totalMissing_outlierPass]
  exact missing_resolved (wf_standardize hwf)

/-- C2: for every well-formed dataset, once the Missing-Value Resolver has
completed inside the pipeline (the column drop pass, and the cell
imputation pass that runs after duplicate removal), the dataset contains
zero missing cells. -/
theorem resolver_leaves_no_missing (d : Dataset) (hwf : wf d) :
    totalMissing
      (imputePass ((dedupPass ((dropPass ((standardizeColumns d).1)).1)).1)).1 = 0 :=
  missing_resolved (wf_standardize hwf)

/-- Witness for C2 at the concrete dataset `dsMixed`. -/
theorem resolver_leaves_no_missing_witness :
    wf dsMixed ∧
      totalMissing
        (imputePass ((dedupPass ((dropPass ((standardizeColumns dsMixed).1)).1)).1)).1 = 0 :=
  ⟨by decide, resolver_leaves_no_missing dsMixed (by decide)⟩

/-- C6: after the Duplicate Eliminator, no two rows of the output are
cell-wise identical, the output rows are exactly the first occurrences of
their value tuples (indices kept by `keepIdx` have no equal earlier row),
and the output row order is a subsequence of the input row order. -/
theorem duplicate_eliminator_spec (d : Dataset) :
    (rowsOf (dedupPass d).1).Pairwise (fun r s => r ≠ s) ∧
    (rowsOf (dedupPass d).1).Sublist (rowsOf d) ∧
    rowsOf (dedupPass d).1 = (keepIdx d).map (rowAt d) ∧
    ∀ i ∈ keepIdx d, ∀ j < i, rowAt d j ≠ rowAt d i :=
  ⟨rowsOf_dedup_pairwise d, rowsOf_dedup_sublist d, rowsOf_dedup d,
    fun _ hi => keepIdx_not_dup hi⟩

/-- Witness for C6 at the concrete dataset `dsNumDup` (rows 1 and 2 are
duplicates): the surviving rows are the first occurrences, rows 0 and 2. -/
theorem duplicate_eliminator_spec_witness :
    rowsOf (dedupPass dsNumDup).1 = (keepIdx dsNumDup).map (rowAt dsNumDup) ∧
      keepIdx dsNumDup = [0, 2] :=
  ⟨(duplicate_eliminator_spec dsNumDup).2.2.1, by decide⟩

/-- Behavior on the empty dataset: cleaning produces a 0-by-0 output and a
log of no-op records only, and the Analyzer returns a summary whose counts
are all zero. -/
theorem empty_dataset_behavior :
    clean_data ⟨0, []⟩ =
      (⟨0, []⟩,
       [ActionRecord.standardized 0, ActionRecord.noColumnsDropped,
        ActionRecord.noDuplicates, ActionRecord.noMissingToFill,
        ActionRecord.noOutliers, ActionRecord.cleaningComplete (0, 0) (0, 0)]) ∧
    analyze_data ⟨0, []⟩ =
      { rows := 0, columns := 0, numeric_columns := 0, categorical_columns := 0,
        total_missing := 0, missing_data := [], numeric_summary := [],
        categorical_summary := [] } := by
  exact ⟨by decide, by decide⟩

/-- C10: the fill value `Series.mode()[0]` is order-independent (invariant
under permutation of the rows) and, among the values tied for the maximal
multiplicity, it is the least one in the column's value order - not the
tied value that appears first. -/
theorem mode_tiebreak (cells cells' : List Cell) (v : Cell) :
    (cells.Perm cells' → mode cells = mode cells') ∧
    (mode cells = some v →
      v ∈ nonMissing cells ∧
      (∀ w ∈ nonMissing cells, (nonMissing cells).count w ≤ (nonMissing cells).count v) ∧
      (∀ w ∈ nonMissing cells,
        (nonMissing cells).count w = (nonMissing cells).count v → cellLe v w = true)) := by
  constructor
  · exact fun h => mode_perm h
  · intro h
    rcases (mode_eq_some_iff _ _).mp h with ⟨hv, hmin⟩
    rcases (mem_modes _ _).mp hv with ⟨hvm, hvc⟩
    refine ⟨hvm, ?_, ?_⟩
    · intro w hw
      rw [hvc]
      exact count_le_maxCount _ _ hw
    · intro w hw hwc
      apply hmin
      exact (mem_modes _ _).mpr ⟨hw, by rw [hwc, hvc]⟩

/-- Witness for C10: with the tied modes `"a"` and `"b"` (`"b"` appearing
first), the fill value is the same for any row order and is `"a"`, the
least tied value. -/
theorem mode_tiebreak_witness :
    mode [Cell.str "b", Cell.str "a", Cell.str "a", Cell.str "b"] =
      mode [Cell.str "a", Cell.str "b", Cell.str "b", Cell.str "a"] ∧
    mode [Cell.str "b", Cell.str "a", Cell.str "a", Cell.str "b"] = some (Cell.str "a") :=
  ⟨(mode_tiebreak _ _ Cell.na).1 (by decide), by decide⟩

/-- C4: a column is removed by the drop pass exactly when its missing
ratio `missing_count / row_count` exceeds the fixed threshold `0.95`; on a
0-row dataset the ratio is 0 (Python computes `0/0 = NaN`, which also fails
the comparison) so no column is ever dropped; each dropped column yields an
action record carrying the exact ratio the source renders at one decimal
place of percent. -/
theorem drop_pass_spec (d : Dataset) :
    (dropPass d).1.cols =
      d.cols.filter (fun c => !decide (missingPct d c > 95 / 100)) ∧
    (dropPass d).1.nrows = d.nrows ∧
    (d.nrows = 0 → (dropPass d).1 = d) ∧
    (∀ c ∈ d.cols,
      (missingPct d c > 95 / 100 ↔
        ActionRecord.droppedColumn c.name (missingPct d c) ∈ (dropPass d).2)) := by
  refine ⟨?_, dropPass_nrows d, ?_, ?_⟩
  · rw [dropPass]
    split
    · rename_i hempty
      have hall := List.filter_eq_nil.mp (List.isEmpty_iff.mp hempty)
      have h2 : ∀ c ∈ d.cols, (!decide (missingPct d c > 95 / 100)) = true := by
        intro c hc
        simpa using hall c hc
      exact (List.filter_eq_self.mpr h2).symm
    · rfl
  · intro h0
    have hall : d.cols.filter (fun c => decide (missingPct d c > 95 / 100)) = [] := by
      rw [List.filter_eq_nil]
      intro c hc
      rw [decide_eq_true_eq, missingPct, h0]
      push_neg
      norm_num
    rw [dropPass, hall]
    rfl
  · intro c hc
    constructor
    · intro hgt
      have hmem : c ∈ d.cols.filter (fun c => decide (missingPct d c > 95 / 100)) :=
        List.mem_filter.mpr ⟨hc, decide_eq_true hgt⟩
      have hne : ¬(d.cols.filter (fun c => decide (missingPct d c > 95 / 100))).isEmpty = true := by
        intro hempty
        rw [List.isEmpty_iff.mp hempty] at hmem
        exact List.not_mem_nil _ hmem
      rw [dropPass, if_neg hne]
      exact List.mem_map_of_mem _ hmem
    · intro hrec
      rw [dropPass] at hrec
      split at hrec
      · rw [List.mem_singleton] at hrec
        exact absurd hrec (by simp)
      · rcases List.mem_map.mp hrec with ⟨c', hc', heq⟩
        rw [ActionRecord.droppedColumn.injEq] at heq
        have hpred := (List.mem_filter.mp hc').2
        rw [decide_eq_true_eq] at hpred
        rw [← heq.2]
        exact hpred

set_option maxRecDepth 40000 in
unseal Rat.add Rat.mul Rat.inv Rat.sub in
/-- Witness for C4: on 100 rows with 96 missing cells, the column is
dropped and the log records the exact ratio `96/100`, rendered at one
decimal place of percent as `96.0%` (960 tenths). -/
theorem drop_pass_spec_witness :
    ActionRecord.droppedColumn "x" (96 / 100) ∈ (dropPass dsDrop96).2 ∧
      pctTenths (96 / 100) = 960 := by
  constructor
  · have h := (((drop_pass_spec dsDrop96).2.2.2 colDrop96 (by decide)).mp (by decide))
    have e : ActionRecord.droppedColumn colDrop96.name (missingPct dsDrop96 colDrop96) =
        ActionRecord.droppedColumn "x" (96 / 100) := by decide
    rwa [e] at h
  · norm_num [pctTenths, round_eq]

/-- C7 counterexample: a dataset whose single column has boolean storage.
The source classifies with `select_dtypes(include=[np.number])` and
`select_dtypes(include=['object'])`; a bool column matches neither, so it
appears in no summary and the two kind counts do not add up to the column
count, contradicting the claimed exhaustive two-way classification. -/
theorem analyzer_bool_counterexample :
    (analyze_data dsBool).columns = 1 ∧
    (analyze_data dsBool).numeric_columns = 0 ∧
    (analyze_data dsBool).categorical_columns = 0 ∧
    (analyze_data dsBool).numeric_summary = [] ∧
    (analyze_data dsBool).categorical_summary = [] ∧
    (analyze_data dsBool).numeric_columns + (analyze_data dsBool).categorical_columns ≠
      (analyze_data dsBool).columns := by
  decide

/-- C7 amended: every integer/float column is listed in `numeric_summary`
and every object column in `categorical_summary`; the two counts add up to
at most the column count, with equality exactly when no column of another
storage kind (such as bool) is present. -/
theorem analyzer_classification (d : Dataset) :
    (analyze_data d).numeric_columns =
      d.cols.countP (fun c => decide (c.dtype = Dtype.numeric)) ∧
    (analyze_data d).categorical_columns =
      d.cols.countP (fun c => decide (c.dtype = Dtype.object)) ∧
    (analyze_data d).numeric_columns + (analyze_data d).categorical_columns ≤
      (analyze_data d).columns ∧
    ((analyze_data d).numeric_columns + (analyze_data d).categorical_columns =
        (analyze_data d).columns ↔ ∀ c ∈ d.cols, c.dtype ≠ Dtype.bool) ∧
    (∀ c ∈ d.cols, c.dtype = Dtype.numeric → c.name ∈ (analyze_data d).numeric_summary) ∧
    (∀ c ∈ d.cols, c.dtype = Dtype.object → c.name ∈ (analyze_data d).categorical_summary) := by
  have hn : (analyze_data d).numeric_columns =
      d.cols.countP (fun c => decide (c.dtype = Dtype.numeric)) := by
    simp [analyze_data, List.countP_eq_length_filter]
  have hc : (analyze_data d).categorical_columns =
      d.cols.countP (fun c => decide (c.dtype = Dtype.object)) := by
    simp [analyze_data, List.countP_eq_length_filter]
  have hpart := dtype_partition d.cols
  have hcols : (analyze_data d).columns = d.cols.length := rfl
  refine ⟨hn, hc, ?_, ?_, ?_, ?_⟩
  · rw [hn, hc, hcols]
    omega
  · rw [hn, hc, hcols]
    constructor
    · intro hsum c hcm hdt
      have hzero : d.cols.countP (fun c => decide (c.dtype = Dtype.bool)) = 0 := by omega
      rw [List.countP_eq_zero] at hzero
      exact hzero c hcm (decide_eq_true hdt)
    · intro hnone
      have hzero : d.cols.countP (fun c => decide (c.dtype = Dtype.bool)) = 0 := by
        rw [List.countP_eq_zero]
        intro c hcm hdec
        exact hnone c hcm (of_decide_eq_true hdec)
      omega
  · intro c hcm hdt
    have : c ∈ d.cols.filter (fun c => decide (c.dtype = Dtype.numeric)) :=
      List.mem_filter.mpr ⟨hcm, decide_eq_true hdt⟩
    exact List.mem_map_of_mem _ this
  · intro c hcm hdt
    have : c ∈ d.cols.filter (fun c => decide (c.dtype = Dtype.object)) :=
      List.mem_filter.mpr ⟨hcm, decide_eq_true hdt⟩
    exact List.mem_map_of_mem _ this

/-- Witness for C7 at the concrete dataset `dsPlain`, which has no bool
column: there the two kind counts do add up to the column count. -/
theorem analyzer_classification_witness :
    (analyze_data dsPlain).numeric_columns + (analyze_data dsPlain).categorical_columns =
      (analyze_data dsPlain).columns :=
  ((analyzer_classification dsPlain).2.2.2.1).mpr (by decide)

unseal Rat.add Rat.mul Rat.inv Rat.sub in
/-- C1 counterexample: on the dataset `dsNumDup` (one numeric column
`[1, 1, NaN]`) the log places the duplicate-removal record (index 2)
strictly before the imputation record (index 3): the source removes
duplicate rows before imputing missing cells, so imputation does not all
happen before duplicate removal and the claimed order Normalizer, then the
whole Missing-Value Resolver, then Duplicate Eliminator does not match the
code. -/
theorem clean_data_order_counterexample :
    (clean_data dsNumDup).2 =
      [ActionRecord.standardized 1, ActionRecord.noColumnsDropped,
       ActionRecord.removedDuplicates 1, ActionRecord.filledMedian "c" 1,
       ActionRecord.noOutliers, ActionRecord.cleaningComplete (3, 1) (2, 1)] ∧
    (clean_data dsNumDup).2.getD 2 ActionRecord.noDuplicates =
      ActionRecord.removedDuplicates 1 ∧
    (clean_data dsNumDup).2.getD 3 ActionRecord.noDuplicates =
      ActionRecord.filledMedian "c" 1 :=
  ⟨by decide, by decide, by decide⟩

/-- C1 amended: the Cleaning Orchestrator runs the stages in the fixed
order Column Normalizer, column drop pass, Duplicate Eliminator, cell
imputation pass, Outlier Capper, on one input dataset; the log is the
stage logs concatenated in exactly that order, closed by the shape-change
record; in particular every duplicate-removal record precedes every
imputation record (the log splits into a fill-free prefix and a
dedup-free suffix). -/
theorem clean_data_stage_order (d : Dataset) :
    (clean_data d).1 =
      (outlierPass ((imputePass ((dedupPass ((dropPass
        ((standardizeColumns d).1)).1)).1)).1)).1 ∧
    (clean_data d).2 =
      (standardizeColumns d).2 ++ (dropPass ((standardizeColumns d).1)).2 ++
        (dedupPass ((dropPass ((standardizeColumns d).1)).1)).2 ++
        (imputePass ((dedupPass ((dropPass ((standardizeColumns d).1)).1)).1)).2 ++
        (outlierPass ((imputePass ((dedupPass ((dropPass
          ((standardizeColumns d).1)).1)).1)).1)).2 ++
        [ActionRecord.cleaningComplete (shape d) (shape (clean_data d).1)] ∧
    ∃ A B : List ActionRecord, (clean_data d).2 = A ++ B ∧
      (∀ r ∈ A, isFillRecord r = false) ∧ (∀ r ∈ B, isDedupRecord r = false) := by
  refine ⟨clean_data_fst d, clean_data_snd d, ?_⟩
  refine ⟨(standardizeColumns d).2 ++ (dropPass ((standardizeColumns d).1)).2 ++
      (dedupPass ((dropPass ((standardizeColumns d).1)).1)).2,
    (imputePass ((dedupPass ((dropPass ((standardizeColumns d).1)).1)).1)).2 ++
      (outlierPass ((imputePass ((dedupPass ((dropPass
        ((standardizeColumns d).1)).1)).1)).1)).2 ++
      [ActionRecord.cleaningComplete (shape d) (shape (clean_data d).1)], ?_, ?_, ?_⟩
  · rw [clean_data_snd d]
    simp [List.append_assoc]
  · intro r hr
    rcases List.mem_append.mp hr with hr' | hr'
    · rcases List.mem_append.mp hr' with hr'' | hr''
      · rw [List.mem_singleton.mp hr'']
        rfl
      · exact not_fill_of_drop_log (dropPass_log _ r hr'')
    · exact not_fill_of_dedup_log (dedupPass_log _ r hr')
  · intro r hr
    rcases List.mem_append.mp hr with hr' | hr'
    · rcases List.mem_append.mp hr' with hr'' | hr''
      · exact not_dedup_of_fill_log (imputePass_log _ r hr'')
      · exact not_dedup_of_cap_log (outlierPass_log _ r hr'')
    · rw [List.mem_singleton.mp hr']
      rfl

/-- Witness for C1 (amended) at the concrete dataset `dsNumDup`. -/
theorem clean_data_stage_order_witness :
    (clean_data dsNumDup).1 =
      (outlierPass ((imputePass ((dedupPass ((dropPass
        ((standardizeColumns dsNumDup).1)).1)).1)).1)).1 :=
  (clean_data_stage_order dsNumDup).1

unseal Rat.add Rat.mul Rat.inv Rat.sub in
/-- C8 counterexample: rerunning the pipeline on the cleaned output of
`dsRerun` (one numeric column `[2, 2, NaN]`, cleaned to `[2, 2]`) removes
one duplicate row: imputing after duplicate removal re-created two equal
rows, so the second run emits a record of the removed kind and the first
run's output is not a fixed point. -/
theorem rerun_not_fixed_point :
    (clean_data (clean_data dsRerun).1).2 =
      [ActionRecord.standardized 1, ActionRecord.noColumnsDropped,
       ActionRecord.removedDuplicates 1, ActionRecord.noMissingToFill,
       ActionRecord.noOutliers, ActionRecord.cleaningComplete (2, 1) (1, 1)] ∧
    ActionRecord.removedDuplicates 1 ∈ (clean_data (clean_data dsRerun).1).2 :=
  ⟨by decide, by decide⟩

/-- C8 amended: rerunning the full pipeline on the cleaned output of a
well-formed dataset produces zero records of the dropped-column kind and
zero records of the filled-value kind (the output has no missing cells,
so nothing is dropped or filled); records of the removed-duplicates and
capped-outliers kinds can still occur on the second run. -/
theorem rerun_no_drop_fill (d : Dataset) (hwf : wf d) :
    (clean_data (clean_data d).1).2.all
      (fun r => !(isDropRecord r || isFillRecord r)) = true := by
  have hwfe : wf (clean_data d).1 := wf_clean_data hwf
  have hmiss : totalMissing (clean_data d).1 = 0 := totalMissing_clean_data hwf
  have hwfs : wf (standardizeColumns (clean_data d).1).1 := wf_standardize hwfe
  have hmiss1 : totalMissing (standardizeColumns (clean_data d).1).1 = 0 := by
    rw [totalMissing_standardize]
    exact hmiss
  have hdrop : dropPass (standardizeColumns (clean_data d).1).1 =
      ((standardizeColumns (clean_data d).1).1, [ActionRecord.noColumnsDropped]) :=
    dropPass_no_missing hmiss1
  have hmiss2 :
      totalMissing (dedupPass ((dropPass ((standardizeColumns (clean_data d).1).1)).1)).1 = 0 := by
    rw [hdrop]
    exact totalMissing_dedupPass hwfs hmiss1
  have himp : imputePass (dedupPass ((dropPass ((standardizeColumns (clean_data d).1).1)).1)).1 =
      ((dedupPass ((dropPass ((standardizeColumns (clean_data d).1).1)).1)).1,
       [ActionRecord.noMissingToFill]) :=
    imputePass_no_missing hmiss2
  rw [List.all_eq_true]
  intro r hr
  suffices hs : isDropRecord r = false ∧ isFillRecord r = false by
    rw [hs.1, hs.2]
    rfl
  rw [clean_data_snd] at hr
  rcases List.mem_append.mp hr with hr1 | hr1
  · rcases List.mem_append.mp hr1 with hr2 | hr2
    · rcases List.mem_append.mp hr2 with hr3 | hr3
      · rcases List.mem_append.mp hr3 with hr4 | hr4
        · rcases List.mem_append.mp hr4 with hr5 | hr5
          · rw [List.mem_singleton.mp hr5]
            exact ⟨rfl, rfl⟩
          · rw [hdrop] at hr5
            rw [List.mem_singleton.mp hr5]
            exact ⟨rfl, rfl⟩
        · have h := dedupPass_log _ r hr4
          exact ⟨not_drop_of_dedup_log h, not_fill_of_dedup_log h⟩
      · rw [himp] at hr3
        rw [List.mem_singleton.mp hr3]
        exact ⟨rfl, rfl⟩
    · exact not_drop_fill_of_cap_log (outlierPass_log _ r hr2)
  · rw [List.mem_singleton.mp hr1]
    exact ⟨rfl, rfl⟩

/-- Witness for C8 (amended) at the concrete dataset `dsMixed`. -/
theorem rerun_no_drop_fill_witness :
    (clean_data (clean_data dsMixed).1).2.all
      (fun r => !(isDropRecord r || isFillRecord r)) = true :=
  rerun_no_drop_fill dsMixed (by decide)

/-- C3: in the cell imputation pass, every remaining column with at least
one missing cell is filled according to its storage kind: an int64/float64
column has every missing cell replaced by the median of its non-missing
values (which exists, because a column surviving the drop pass with a
missing cell also keeps a non-missing one through duplicate removal); any
other column is filled with `Series.mode()[0]` - a most frequent
non-missing value - or with the literal string `"Unknown"` exactly when
the column has zero non-missing values; one action record is logged per
filled column, and afterwards the column has no missing cell. -/
theorem imputation_strategy (d : Dataset) (hwf : wf d) (c : Column)
    (hc : c ∈ ((dedupPass ((dropPass ((standardizeColumns d).1)).1)).1).cols)
    (hm : 0 < countNa c.cells) :
    (c.dtype = Dtype.numeric →
      quantileLinear (nonMissingNums c.cells) (1 / 2) ≠ none ∧
      (imputeCol c).1.cells =
        fillCells c.cells
          (Cell.num ((quantileLinear (nonMissingNums c.cells) (1 / 2)).getD 0)) ∧
      (imputeCol c).2 = [ActionRecord.filledMedian c.name (countNa c.cells)]) ∧
    (c.dtype ≠ Dtype.numeric →
      (imputeCol c).1.cells =
        fillCells c.cells ((mode c.cells).getD (Cell.str "Unknown")) ∧
      (imputeCol c).2 = [ActionRecord.filledMode c.name (countNa c.cells)] ∧
      (mode c.cells = none ↔ nonMissing c.cells = [])) ∧
    countNa (imputeCol c).1.cells = 0 ∧
    (imputeCol c).1 ∈
      (imputePass ((dedupPass ((dropPass ((standardizeColumns d).1)).1)).1)).1.cols := by
  have hm' : countNa c.cells > 0 := hm
  refine ⟨?_, ?_, ?_, ?_⟩
  · intro hd
    have hne := dedup_drop_col_has_num (wf_standardize hwf) hc hd hm
    cases hq : quantileLinear (nonMissingNums c.cells) (1 / 2) with
    | none => exact absurd ((quantileLinear_eq_none_iff _ _).mp hq) hne
    | some med =>
      refine ⟨by simp [hq], ?_, ?_⟩
      · simp only [imputeCol, if_pos hm', if_pos hd, hq, Option.getD_some]
      · simp only [imputeCol, if_pos hm', if_pos hd, hq]
  · intro hd
    refine ⟨?_, ?_, mode_eq_none_iff c.cells⟩
    · simp only [imputeCol, if_pos hm', if_neg hd]
    · simp only [imputeCol, if_pos hm', if_neg hd]
  · exact countNa_imputeCol
      (fun hd hmm => dedup_drop_col_has_num (wf_standardize hwf) hc hd hmm)
  · rw [imputePass_cols]
    exact List.mem_map_of_mem _ hc

unseal Rat.add Rat.mul Rat.inv Rat.sub in
/-- Witness for C3 at the concrete dataset `dsModeTie`: its object column
survives intact to the imputation pass, where the missing cell is filled
with the mode, which is `"a"` (the least of the two tied values). -/
theorem imputation_strategy_witness :
    (imputeCol ⟨"s", Dtype.object,
        [Cell.str "b", Cell.str "a", Cell.str "a", Cell.str "b", Cell.na]⟩).1.cells =
      fillCells [Cell.str "b", Cell.str "a", Cell.str "a", Cell.str "b", Cell.na]
        ((mode [Cell.str "b", Cell.str "a", Cell.str "a", Cell.str "b", Cell.na]).getD
          (Cell.str "Unknown")) ∧
    (imputeCol ⟨"s", Dtype.object,
        [Cell.str "b", Cell.str "a", Cell.str "a", Cell.str "b", Cell.na]⟩).1.cells =
      [Cell.str "b", Cell.str "a", Cell.str "a", Cell.str "b", Cell.str "a"] := by
  constructor
  · exact ((imputation_strategy dsModeTie (by decide) _ (by decide) (by decide)).2.1
      (by decide)).1
  · decide

/-- C5: for a numeric column with at least one value, the Outlier Capper
computes Q1 and Q3 by linear-interpolation quantile estimation, sets the
fences `Q1 - 1.5 * IQR` and `Q3 + 1.5 * IQR` with `Q1 <= Q3`, and replaces
the column by its cell-wise `np.clip` into the fences without removing any
row: cells strictly below the lower fence become the lower fence, cells
strictly above the upper fence become the upper fence, all other cells are
unchanged, and afterwards every numeric cell lies within the fences
computed before capping. -/
theorem outlier_capper_spec (d : Dataset) (c : Column) (hc : c ∈ d.cols)
    (hd : c.dtype = Dtype.numeric) (hne : nonMissingNums c.cells ≠ []) :
    (outlierCol c).1 ∈ (outlierPass d).1.cols ∧
    (outlierCol c).1.cells =
      c.cells.map (capCell (lowerFence (nonMissingNums c.cells))
        (upperFence (nonMissingNums c.cells))) ∧
    (quantileLinear (nonMissingNums c.cells) (1 / 4)).getD 0 ≤
      (quantileLinear (nonMissingNums c.cells) (3 / 4)).getD 0 ∧
    lowerFence (nonMissingNums c.cells) ≤ upperFence (nonMissingNums c.cells) ∧
    (outlierCol c).1.cells.length = c.cells.length ∧
    (∀ x : ℚ, Cell.num x ∈ (outlierCol c).1.cells →
      lowerFence (nonMissingNums c.cells) ≤ x ∧
        x ≤ upperFence (nonMissingNums c.cells)) ∧
    (∀ x : ℚ, x < lowerFence (nonMissingNums c.cells) →
      capCell (lowerFence (nonMissingNums c.cells)) (upperFence (nonMissingNums c.cells))
        (Cell.num x) = Cell.num (lowerFence (nonMissingNums c.cells))) ∧
    (∀ x : ℚ, upperFence (nonMissingNums c.cells) < x →
      capCell (lowerFence (nonMissingNums c.cells)) (upperFence (nonMissingNums c.cells))
        (Cell.num x) = Cell.num (upperFence (nonMissingNums c.cells))) ∧
    (∀ x : ℚ, lowerFence (nonMissingNums c.cells) ≤ x →
      x ≤ upperFence (nonMissingNums c.cells) →
      capCell (lowerFence (nonMissingNums c.cells)) (upperFence (nonMissingNums c.cells))
        (Cell.num x) = Cell.num x) := by
  have hq13 : (quantileLinear (nonMissingNums c.cells) (1 / 4)).getD 0 ≤
      (quantileLinear (nonMissingNums c.cells) (3 / 4)).getD 0 :=
    quantile_le_quantile hne (by norm_num) (by norm_num) (by norm_num)
  have hfence : lowerFence (nonMissingNums c.cells) ≤ upperFence (nonMissingNums c.cells) := by
    rw [lowerFence, upperFence]
    linarith
  cases hq1 : quantileLinear (nonMissingNums c.cells) (1 / 4) with
  | none => exact absurd ((quantileLinear_eq_none_iff _ _).mp hq1) hne
  | some q1v =>
  cases hq3 : quantileLinear (nonMissingNums c.cells) (3 / 4) with
  | none => exact absurd ((quantileLinear_eq_none_iff _ _).mp hq3) hne
  | some q3v =>
  have hlo : lowerFence (nonMissingNums c.cells) = q1v - 3 / 2 * (q3v - q1v) := by
    rw [lowerFence, hq1, hq3]
    simp
  have hhi : upperFence (nonMissingNums c.cells) = q3v + 3 / 2 * (q3v - q1v) := by
    rw [upperFence, hq1, hq3]
    simp
  have hcells : (outlierCol c).1.cells =
      c.cells.map (capCell (lowerFence (nonMissingNums c.cells))
        (upperFence (nonMissingNums c.cells))) := by
    rw [hlo, hhi]
    simp only [outlierCol, if_pos hd, hq1, hq3]
    split
    · rfl
    · rename_i houtl
      have hzero : (c.cells.filter (fun x =>
          match x with
          | Cell.num v => decide (v < q1v - 3 / 2 * (q3v - q1v)) ||
              decide (v > q3v + 3 / 2 * (q3v - q1v))
          | _ => false)).length = 0 := by omega
      have hpred := List.filter_eq_nil.mp (List.length_eq_zero.mp hzero)
      have hid : ∀ x ∈ c.cells,
          capCell (q1v - 3 / 2 * (q3v - q1v)) (q3v + 3 / 2 * (q3v - q1v)) x = x := by
        intro x hx
        have hnp := hpred x hx
        cases x with
        | num v =>
          simp only [Bool.or_eq_true, decide_eq_true_eq, not_or] at hnp
          have h1 : q1v - 3 / 2 * (q3v - q1v) ≤ v := le_of_not_lt hnp.1
          have h2 : v ≤ q3v + 3 / 2 * (q3v - q1v) := le_of_not_lt hnp.2
          exact capCell_inside h1 h2
        | na => rfl
        | str s => rfl
        | boolean b => rfl
      rw [List.map_congr_left hid]
      exact (List.map_id _).symm
  refine ⟨?_, hcells, ?_, hfence, ?_, ?_, ?_, ?_, ?_⟩
  · rw [outlierPass_cols]
    exact List.mem_map_of_mem _ hc
  · rw [hq1, hq3] at hq13
    exact hq13
  · rw [hcells]
    exact List.length_map _ _
  · intro x hx
    rw [hcells] at hx
    rcases List.mem_map.mp hx with ⟨y, _, hy⟩
    exact capCell_mem_bounds hfence hy
  · intro x hx
    exact capCell_below hfence hx
  · intro x hx
    exact capCell_above hfence hx
  · intro x h1 h2
    exact capCell_inside h1 h2

unseal Rat.add Rat.mul Rat.inv Rat.sub in
/-- Witness for C5, the spec's outlier scenario: on the numeric column
`[1, 2, 3, 4, 1000]`, Q1 is 2 and Q3 is 4, the fences are -1 and 7, the
value 1000 is capped to 7, and the log records one capped outlier. -/
theorem outlier_capper_witness :
    (outlierCol ⟨"c", Dtype.numeric,
        [Cell.num 1, Cell.num 2, Cell.num 3, Cell.num 4, Cell.num 1000]⟩).1.cells =
      [Cell.num 1, Cell.num 2, Cell.num 3, Cell.num 4, Cell.num 1000].map
        (capCell (lowerFence (nonMissingNums
            [Cell.num 1, Cell.num 2, Cell.num 3, Cell.num 4, Cell.num 1000]))
          (upperFence (nonMissingNums
            [Cell.num 1, Cell.num 2, Cell.num 3, Cell.num 4, Cell.num 1000]))) ∧
    quantileLinear [(1 : ℚ), 2, 3, 4, 1000] (1 / 4) = some 2 ∧
    quantileLinear [(1 : ℚ), 2, 3, 4, 1000] (3 / 4) = some 4 ∧
    lowerFence [(1 : ℚ), 2, 3, 4, 1000] = -1 ∧
    upperFence [(1 : ℚ), 2, 3, 4, 1000] = 7 ∧
    outlierPass dsOutlier =
      (⟨5, [⟨"c", Dtype.numeric,
        [Cell.num 1, Cell.num 2, Cell.num 3, Cell.num 4, Cell.num 7]⟩]⟩,
       [ActionRecord.cappedOutliers "c" 1]) := by
  refine ⟨?_, by decide, by decide, by decide, by decide, by decide⟩
  exact (outlier_capper_spec dsOutlier _ (by decide) (by decide) (by decide)).2.1

/-- C9: the claim asserts that cleaning completes without raising any
error on every well-formed dataset, but the source crashes when two
column identifiers collide after normalization.  `"A B"` and `"A-B"` both
normalize to `"a_b"`, so after step 1 the dataset carries two
identically-named columns; on that configuration step 2's per-column
lookup `self.cleaned_data[col]` returns a two-column DataFrame (pandas
duplicate-label selection), the missing ratio becomes a Series, and
`if missing_pct > missing_threshold:` raises `ValueError: The truth value
of a Series is ambiguous`.  This theorem evaluates the embedding at that
failing input up to the point where the source crashes: both names
normalize to the same identifier and the normalized name list of the
standardized dataset is no longer duplicate-free.  The no-op behavior on
the empty dataset, the part of the claim the source does satisfy, is
established separately by `empty_dataset_behavior`. -/
theorem colliding_names_reach_ambiguous_lookup :
    normalizeName "A B" = "a_b" ∧ normalizeName "A-B" = "a_b" ∧
    (standardizeColumns dsCollide).1.cols.map (fun c => c.name) = ["a_b", "a_b"] ∧
    ¬((standardizeColumns dsCollide).1.cols.map (fun c => c.name)).Nodup := by
  decide
